import Mathlib

/-!
# KenLM language-model feature of the decoder (moses/LM/Ken.cpp)

A shallow embedding of the context state, the linear incremental scorer
(`Evaluate`), the trailing-word reconstruction (`LastIDs`) and the phrase
pre-scorer (`CalcScore`), with the n-gram model taken as a parameter.

Scores are `float` in the source.  They are embedded as exact rationals:
the properties below are about which terms are summed and which state is
returned, not about rounding.
-/

namespace Moses

/-- Index of a word in the n-gram model (lm::WordIndex, an unsigned 32-bit integer). -/
abbrev WordIndex := Nat

/-- Context state of the n-gram model (lm::ngram::State): a fixed-capacity array
`words`, most recent word first, of which the first `length` entries are meaningful. -/
structure State where
  words : List WordIndex
  length : Nat
deriving DecidableEq, Repr

/-- Well-formed state: `length` does not exceed the capacity of the array and every
entry of the array is an unsigned 32-bit value. -/
def State.WF (s : State) : Prop :=
  s.length ≤ s.words.length ∧ ∀ w ∈ s.words, w < 2 ^ 32

instance (s : State) : Decidable s.WF := by
  unfold State.WF
  exact inferInstance

/-- The n-gram model behind the feature (the template parameter `Model`), taken as a
parameter: its order, its distinguished state and word indices, and its three
queries.  `Order` is at least one: the code subtracts one from it to size buffers. -/
structure Model where
  Order : Nat
  Order_pos : 1 ≤ Order
  BeginSentenceState : State
  BeginSentence : WordIndex
  EndSentence : WordIndex
  Score : State → WordIndex → ℚ × State
  FullScoreForgotState : List WordIndex → WordIndex → ℚ × State
  GetState : List WordIndex → State

/-- A target word: the identifier of its factor of the model's factor type, and
whether it is a non-terminal. -/
structure Word where
  factor : Nat
  isNonTerminal : Bool
deriving DecidableEq, Repr, Inhabited

/-- What `Evaluate` and `LastIDs` read from a search hypothesis. -/
structure Hypothesis where
  GetCurrTargetLength : Nat
  GetStartPos : Nat
  GetEndPos : Nat
  IsSourceCompleted : Bool
  GetWord : Nat → Word

/-- The feature object (LanguageModelKen<Model>): the shared model, the vocabulary
mapping, the factor of the sentence-begin token, whether the out-of-vocabulary
sub-score is reported, and the score transform (TransformLMScore), a parameter. -/
structure LanguageModelKen where
  m_ngram : Model
  m_lmIdLookup : List WordIndex
  m_beginSentenceFactor : Nat
  OOVFeatureEnabled : Bool
  TransformLMScore : ℚ → ℚ

/-- The scores of this feature inside a score collection. -/
abbrev ScoreComponentCollection := List ℚ

/-- Adds a vector of scores to the feature's slots. -/
def PlusEqualsVec : ScoreComponentCollection → List ℚ → ScoreComponentCollection
  | o :: os, s :: ss => (o + s) :: PlusEqualsVec os ss
  | os, _ => os

/-- Adds one score to the feature's single slot. -/
def PlusEquals (out : ScoreComponentCollection) (score : ℚ) : ScoreComponentCollection :=
  PlusEqualsVec out [score]

/-! ## KenLMState::Compare -/

/-- The four bytes of a word index as they lie in memory (least significant first). -/
def wordBytes (w : WordIndex) : List Nat :=
  [w % 256, w / 256 % 256, w / 65536 % 256, w / 16777216 % 256]

/-- The bytes of an array of word indices. -/
def bufferBytes : List WordIndex → List Nat
  | [] => []
  | w :: ws => wordBytes w ++ bufferBytes ws

/-- Comparison of the first `n` bytes of two buffers (std::memcmp): zero when they
agree, otherwise the difference of the first pair of bytes that differ.  Only the sign
of a non-zero result is specified. -/
def memcmp : List Nat → List Nat → Nat → Int
  | a :: as, b :: bs, n + 1 => if a = b then memcmp as bs n else (a : Int) - (b : Int)
  | _, _, _ => 0

/-- Size in bytes of a word index. -/
def sizeofWordIndex : Nat := 4

/-- KenLMState::Compare. -/
def KenLMState.Compare (a b : State) : Int :=
  if a.length < b.length then -1
  else if a.length > b.length then 1
  else memcmp (bufferBytes a.words) (bufferBytes b.words) (sizeofWordIndex * a.length)

/-! ## TranslateID, EmptyHypothesisState, LastIDs -/

/-- Modelled from the spec: TranslateID is declared in Ken.h, which is not among the
sources.  It maps a word's internal identifier through the vocabulary mapping; an
identifier the mapping does not cover maps to the unknown index 0. -/
def TranslateID (lm : LanguageModelKen) (word : Word) : WordIndex :=
  if lm.m_lmIdLookup.length ≤ word.factor then 0 else lm.m_lmIdLookup.getD word.factor 0

/-- LanguageModelKen::EmptyHypothesisState. -/
def EmptyHypothesisState (lm : LanguageModelKen) : State :=
  lm.m_ngram.BeginSentenceState

/-- The loop of LastIDs: `room` is the number of free slots left in the buffer
(`end - index`), `position` the position to read next. -/
def LastIDsLoop (lm : LanguageModelKen) (hypo : Hypothesis) : Nat → Int → List WordIndex
  | 0, _ => []
  | room + 1, position =>
    if position = -1 then [lm.m_ngram.BeginSentence]
    else TranslateID lm (hypo.GetWord position.toNat) :: LastIDsLoop lm hypo room (position - 1)

/-- The conversion of a `size_t` to `int` (32 bits, two's complement): the value modulo
2^32, read as a signed number.  It is the identity below 2^31. -/
def intOfSizeT (n : Nat) : Int :=
  if n % 2 ^ 32 < 2 ^ 31 then ((n % 2 ^ 32 : Nat) : Int) else ((n % 2 ^ 32 : Nat) : Int) - 2 ^ 32

/-- LanguageModelKen::LastIDs: the indices written to the buffer, in order.  The
source keeps `position` in an `int` initialised from the end position of the span; the
definition takes the end position as it is, which is what the conversion `intOfSizeT`
gives for every end position below 2^31. -/
def LastIDs (lm : LanguageModelKen) (hypo : Hypothesis) : List WordIndex :=
  LastIDsLoop lm hypo (lm.m_ngram.Order - 1) (hypo.GetEndPos : Int)

/-! ## Evaluate -/

/-- The local variables of the walk in Evaluate: the running score, the two state
buffers (`ret->state` and `aux_state`), which of them `state0` points to, and the log
of the calls made to the model's `Score` (input state and word index of each). -/
structure WalkState where
  score : ℚ
  ret : State
  aux : State
  state0IsRet : Bool
  calls : List (State × WordIndex)

/-- The buffer `state0` points to. -/
def WalkState.state0 (w : WalkState) : State :=
  if w.state0IsRet then w.ret else w.aux

/-- One iteration of the walk: score the word at `position` from `*state0`, writing
the new state to `*state1`, then swap the two pointers. -/
def walkStep (lm : LanguageModelKen) (hypo : Hypothesis) (w : WalkState) (position : Nat) :
    WalkState :=
  let index := TranslateID lm (hypo.GetWord position)
  let r := lm.m_ngram.Score w.state0 index
  if w.state0IsRet then
    { score := w.score + r.1, ret := w.ret, aux := r.2, state0IsRet := false,
      calls := w.calls ++ [(w.state0, index)] }
  else
    { score := w.score + r.1, ret := r.2, aux := w.aux, state0IsRet := true,
      calls := w.calls ++ [(w.state0, index)] }

/-- The loop `for (; position < adjust_end; ++position)`, with `n` iterations left. -/
def walkLoop (lm : LanguageModelKen) (hypo : Hypothesis) : Nat → Nat → WalkState → WalkState
  | 0, _, w => w
  | n + 1, position, w => walkLoop lm hypo n (position + 1) (walkStep lm hypo w position)

/-- Content of a state buffer before anything is written to it. -/
def unwritten : State := ⟨[], 0⟩

/-- The end of the walk, `adjust_end`. -/
def adjustEnd (lm : LanguageModelKen) (hypo : Hypothesis) : Nat :=
  min (hypo.GetEndPos + 1) (hypo.GetStartPos + lm.m_ngram.Order - 1)

/-- The walk of Evaluate over a non-empty span: the first word is scored from the
previous state into `ret->state`, then the loop runs up to `adjust_end`. -/
def EvaluateWalk (lm : LanguageModelKen) (hypo : Hypothesis) (in_state : State) : WalkState :=
  let begin := hypo.GetStartPos
  let adjust_end := adjustEnd lm hypo
  let index := TranslateID lm (hypo.GetWord begin)
  let r := lm.m_ngram.Score in_state index
  let w0 : WalkState :=
    { score := r.1, ret := r.2, aux := unwritten, state0IsRet := true,
      calls := [(in_state, index)] }
  walkLoop lm hypo (adjust_end - (begin + 1)) (begin + 1) w0

/-- The tail of Evaluate: the transformed score goes to the accumulator, with a zero
out-of-vocabulary component when that sub-score is reported. -/
def accumulate (lm : LanguageModelKen) (out : ScoreComponentCollection) (score : ℚ) :
    ScoreComponentCollection :=
  if lm.OOVFeatureEnabled then PlusEqualsVec out [score, 0] else PlusEquals out score

/-- LanguageModelKen::Evaluate: the state returned and the accumulator afterwards. -/
def Evaluate (lm : LanguageModelKen) (hypo : Hypothesis) (ps : State)
    (out : ScoreComponentCollection) : State × ScoreComponentCollection :=
  let in_state := ps
  if hypo.GetCurrTargetLength = 0 then (in_state, out)
  else
    let end_ := hypo.GetEndPos + 1
    let adjust_end := adjustEnd lm hypo
    let w := EvaluateWalk lm hypo in_state
    if hypo.IsSourceCompleted then
      let indices := LastIDs lm hypo
      let fs := lm.m_ngram.FullScoreForgotState indices lm.m_ngram.EndSentence
      (fs.2, accumulate lm out (lm.TransformLMScore (w.score + fs.1)))
    else if adjust_end < end_ then
      let indices := LastIDs lm hypo
      (lm.m_ngram.GetState indices, accumulate lm out (lm.TransformLMScore w.score))
    else if !w.state0IsRet then
      (w.state0, accumulate lm out (lm.TransformLMScore w.score))
    else
      (w.ret, accumulate lm out (lm.TransformLMScore w.score))

/-! ## Reference definitions: the one-word step folded over a list of word indices -/

/-- One atomic scoring step: score the word from the state reached so far, add its
log-probability to the running total and move to the state the model returns. -/
def scoreStep (m : Model) (acc : ℚ × State) (w : WordIndex) : ℚ × State :=
  (acc.1 + (m.Score acc.2 w).1, (m.Score acc.2 w).2)

/-- Plain left fold of the one-word step over word indices, from state `s`: the sum of
the log-probabilities and the last state. -/
def foldScore (m : Model) (s : State) (ws : List WordIndex) : ℚ × State :=
  ws.foldl (scoreStep m) (0, s)

/-- The calls of a left-to-right walk over word indices from state `s`: each step
takes the state the previous step returned. -/
def scoreSteps (m : Model) : State → List WordIndex → List (State × WordIndex)
  | _, [] => []
  | s, w :: ws => (s, w) :: scoreSteps m (m.Score s w).2 ws

/-- The word indices of the hypothesis at positions `first`, ..., `last - 1`. -/
def spanIndices (lm : LanguageModelKen) (hypo : Hypothesis) (first last : Nat) : List WordIndex :=
  (List.range' first (last - first)).map fun p => TranslateID lm (hypo.GetWord p)

/-! ## Worked example of the specification (order 3) -/

/-- The model of the worked example: `<s>` is 1, `</s>` is 2, "a", "b", "c" are 3, 4, 5. -/
def exModel : Model where
  Order := 3
  Order_pos := by decide
  BeginSentenceState := ⟨[1, 0], 1⟩
  BeginSentence := 1
  EndSentence := 2
  Score := fun s w =>
    if s = ⟨[1, 0], 1⟩ ∧ w = 3 then (-1, ⟨[3, 0], 1⟩)
    else if s = ⟨[3, 0], 1⟩ ∧ w = 4 then (-1/2, ⟨[4, 3], 2⟩)
    else if s = ⟨[4, 3], 2⟩ ∧ w = 5 then (-2, ⟨[5, 4], 2⟩)
    else (0, s)
  FullScoreForgotState := fun _ w => (-3, ⟨[w, 0], 1⟩)
  GetState := fun ids => ⟨ids, ids.length⟩

/-- The feature of the worked example: identity transform, factors 0, 1, 2 are the
words "a", "b", "c". -/
def exLM : LanguageModelKen where
  m_ngram := exModel
  m_lmIdLookup := [3, 4, 5]
  m_beginSentenceFactor := 7
  OOVFeatureEnabled := false
  TransformLMScore := fun x => x

/-- The words of the example candidate: position `i` holds the word of factor `i`. -/
def exWord (i : Nat) : Word := ⟨i, false⟩

/-- The span "a", "b" at positions 0 and 1, sentence not complete. -/
def exHypoAB : Hypothesis := ⟨2, 0, 1, false, exWord⟩

/-- The span "c" at position 2, sentence not complete. -/
def exHypoC : Hypothesis := ⟨1, 2, 2, false, exWord⟩

/-- The span "a", "b", "c" at positions 0 to 2, sentence not complete. -/
def exHypoABC : Hypothesis := ⟨3, 0, 2, false, exWord⟩

/-- The span "a", "b", "c" at positions 0 to 2, sentence complete. -/
def exHypoABCEnd : Hypothesis := ⟨3, 0, 2, true, exWord⟩

/-- An empty span, sentence complete. -/
def exHypoEmpty : Hypothesis := ⟨0, 2, 1, true, exWord⟩

/-! ## A model of order 1 -/

/-- A unigram model: every word scores -1 and the context is always empty. -/
def uniModel : Model where
  Order := 1
  Order_pos := by decide
  BeginSentenceState := ⟨[], 0⟩
  BeginSentence := 1
  EndSentence := 2
  Score := fun _ _ => (-1, ⟨[], 0⟩)
  FullScoreForgotState := fun _ _ => (-1, ⟨[], 0⟩)
  GetState := fun _ => ⟨[], 0⟩

/-- The feature over the unigram model, identity transform. -/
def uniLM : LanguageModelKen where
  m_ngram := uniModel
  m_lmIdLookup := [3, 4, 5]
  m_beginSentenceFactor := 7
  OOVFeatureEnabled := false
  TransformLMScore := fun x => x

/-- The span "a" at position 0, sentence not complete. -/
def exHypoA : Hypothesis := ⟨1, 0, 0, false, exWord⟩

/-! ## A trigram model whose state is the last two words -/

/-- The context kept for a list of trailing words, most recent first: the first two. -/
def histState (ctx : List WordIndex) : State :=
  ⟨ctx.take 2, (ctx.take 2).length⟩

/-- A log-probability that depends on the word and on the two words before it. -/
def histProb (ctx : List WordIndex) (w : WordIndex) : ℚ :=
  -((w : ℚ) + 10 * ((ctx.take 2).sum : ℚ))

/-- A trigram model: `<s>` is 1, `</s>` is 2; `Score` reads the first `length` entries
of its input state only. -/
def histModel : Model where
  Order := 3
  Order_pos := by decide
  BeginSentenceState := histState [1]
  BeginSentence := 1
  EndSentence := 2
  Score := fun s w => (histProb (s.words.take s.length) w, histState (w :: s.words.take s.length))
  FullScoreForgotState := fun ctx w => (histProb ctx w, histState (w :: ctx))
  GetState := fun ctx => histState ctx

/-- The feature over the trigram model, identity transform, out-of-vocabulary
sub-score reported. -/
def histLM : LanguageModelKen where
  m_ngram := histModel
  m_lmIdLookup := [3, 4, 5, 6, 7, 8, 9]
  m_beginSentenceFactor := 99
  OOVFeatureEnabled := true
  TransformLMScore := fun x => x

/-! ## A candidate built phrase by phrase, and its atomic score -/

/-- The hypothesis that appends the phrase `p` to a candidate whose words so far are
`pre`; `complete` tells whether the candidate now covers the whole source. -/
def appendPhrase (pre p : List Word) (complete : Bool) : Hypothesis where
  GetCurrTargetLength := p.length
  GetStartPos := pre.length
  GetEndPos := pre.length + p.length - 1
  IsSourceCompleted := complete
  GetWord := fun i => (pre ++ p).getD i default

/-- The incremental scores of repeated Evaluate calls, one per appended phrase, from
the state `ps` of a candidate whose words so far are `pre`; the call for the last
phrase is marked sentence-complete.  Each score is what the call adds to a zero
accumulator. -/
def EvaluatePhrases (lm : LanguageModelKen) : List Word → State → List (List Word) → List ℚ
  | _, _, [] => []
  | pre, ps, p :: rest =>
    let r := Evaluate lm (appendPhrase pre p rest.isEmpty) ps [0]
    r.2.headD 0 :: EvaluatePhrases lm (pre ++ p) r.1 rest

/-- The atomic score of a word sequence: from the begin state, one Score step per
word, then one for the end-of-sentence symbol. -/
def atomicScore (m : Model) (ids : List WordIndex) : ℚ :=
  (foldScore m m.BeginSentenceState ids).1
    + (m.Score (foldScore m m.BeginSentenceState ids).2 m.EndSentence).1

/-- The trailing raw words of a candidate, most recent first, the sentence-begin index
after its first word, cut to `order - 1` entries. -/
def trailingWords (m : Model) (ids : List WordIndex) : List WordIndex :=
  (ids.reverse ++ [m.BeginSentence]).take (m.Order - 1)

/-! ## A bigram model -/

/-- A bigram model: every word scores -1 and the state is the last word. -/
def biModel : Model where
  Order := 2
  Order_pos := by decide
  BeginSentenceState := ⟨[1], 1⟩
  BeginSentence := 1
  EndSentence := 2
  Score := fun _ w => (-1, ⟨[w], 1⟩)
  FullScoreForgotState := fun _ w => (-1, ⟨[w], 1⟩)
  GetState := fun ctx => ⟨ctx.take 1, (ctx.take 1).length⟩

/-- The feature over the bigram model, identity transform. -/
def biLM : LanguageModelKen where
  m_ngram := biModel
  m_lmIdLookup := [3, 4, 5]
  m_beginSentenceFactor := 7
  OOVFeatureEnabled := false
  TransformLMScore := fun x => x

/-! ## CalcScore -/

/-- Modelled from the spec: lm::ngram::RuleScore is declared in lm/left.hh, which is
not among the sources.  The rule-style scorer accumulates a running total: it starts
with an empty context and a total of zero; `Terminal` adds the log-probability of the
word given the context accumulated so far and extends that context; `Finish` yields the
total accumulated since the last reset. -/
structure RuleScore where
  prob_ : ℚ
  right : State

/-- Modelled from the spec: the scorer as constructed or reset, with an empty context
and a zero total. -/
def RuleScore.Reset : RuleScore := ⟨0, ⟨[], 0⟩⟩

/-- Modelled from the spec: seeds the scorer with the sentence-begin state. -/
def RuleScore.BeginSentence (m : Model) (r : RuleScore) : RuleScore :=
  { r with right := m.BeginSentenceState }

/-- Modelled from the spec: feeds one terminal word to the scorer. -/
def RuleScore.Terminal (m : Model) (r : RuleScore) (word : WordIndex) : RuleScore :=
  ⟨r.prob_ + (m.Score r.right word).1, (m.Score r.right word).2⟩

/-- Modelled from the spec: the total accumulated by the scorer. -/
def RuleScore.Finish (r : RuleScore) : ℚ := r.prob_

/-- The local variables of the two loops of CalcScore. -/
structure CalcState where
  fullScore : ℚ
  scorer : RuleScore
  oovCount : Nat
  position : Nat

/-- The body shared by the two loops of CalcScore, for the word at `position`. -/
def calcStep (lm : LanguageModelKen) (phrase : List Word) (c : CalcState) : CalcState :=
  let word := phrase.getD c.position default
  if word.isNonTerminal then
    { fullScore := c.fullScore + c.scorer.Finish, scorer := RuleScore.Reset,
      oovCount := c.oovCount, position := c.position + 1 }
  else
    let index := TranslateID lm word
    { fullScore := c.fullScore, scorer := c.scorer.Terminal lm.m_ngram index,
      oovCount := if index = 0 then c.oovCount + 1 else c.oovCount,
      position := c.position + 1 }

/-- A loop of CalcScore with `n` iterations left. -/
def calcLoop (lm : LanguageModelKen) (phrase : List Word) : Nat → CalcState → CalcState
  | 0, c => c
  | n + 1, c => calcLoop lm phrase n (calcStep lm phrase c)

/-- The three outputs of CalcScore. -/
structure CalcResult where
  fullScore : ℚ
  ngramScore : ℚ
  oovCount : Nat

/-- LanguageModelKen::CalcScore. -/
def CalcScore (lm : LanguageModelKen) (phrase : List Word) : CalcResult :=
  if phrase.length = 0 then ⟨0, 0, 0⟩
  else
    let c0 : CalcState :=
      if lm.m_beginSentenceFactor = (phrase.getD 0 default).factor then
        ⟨0, RuleScore.Reset.BeginSentence lm.m_ngram, 0, 1⟩
      else ⟨0, RuleScore.Reset, 0, 0⟩
    let ngramBoundary := lm.m_ngram.Order - 1
    let end_loop := min ngramBoundary phrase.length
    let c1 := calcLoop lm phrase (end_loop - c0.position) c0
    let before_boundary := c1.fullScore + c1.scorer.Finish
    let c2 := calcLoop lm phrase (phrase.length - c1.position) c1
    let fullScore := c2.fullScore + c2.scorer.Finish
    ⟨lm.TransformLMScore fullScore, lm.TransformLMScore (fullScore - before_boundary),
      c2.oovCount⟩

/-- The per-word log-probabilities of a word sequence scored left to right from the
state `s`: each word given the words before it. -/
def wordProbs (m : Model) : State → List WordIndex → List ℚ
  | _, [] => []
  | s, w :: ws => (m.Score s w).1 :: wordProbs m (m.Score s w).2 ws

/-- The phrase "a b c d e f g": seven terminal words, of factors 0 to 6. -/
def exPhrase : List Word :=
  [exWord 0, exWord 1, exWord 2, exWord 3, exWord 4, exWord 5, exWord 6]

/-- The per-word log-probabilities of a phrase scored on its own, from the empty
context of a fresh scorer. -/
def phraseProbs (lm : LanguageModelKen) (phrase : List Word) : List ℚ :=
  wordProbs lm.m_ngram RuleScore.Reset.right (phrase.map (TranslateID lm))

/-- The part of the per-word log-probabilities `probs` of a candidate that lies at the
first `b` positions of each of its phrases, the phrases having the lengths `lens`. -/
def walkedProbs (b : Nat) : List Nat → List ℚ → ℚ
  | [], _ => 0
  | l :: ls, probs => (probs.take (min l b)).sum + walkedProbs b ls (probs.drop l)

/-- The trailing raw words of a hypothesis whose span ends at position `e`, most recent
first: the indices of the words at positions e, e - 1, ..., 0, then the
sentence-begin index. -/
def rawTrail (lm : LanguageModelKen) (hypo : Hypothesis) : List WordIndex :=
  ((List.range (hypo.GetEndPos + 1)).reverse.map fun i => TranslateID lm (hypo.GetWord i))
    ++ [lm.m_ngram.BeginSentence]

/-! ## MappingBuilder -/

/-- Resizing of a vector of word indices (std::vector::resize): entries beyond the old
size are zero. -/
def resize (v : List WordIndex) (n : Nat) : List WordIndex :=
  v.take n ++ List.replicate (n - v.length) 0

/-- MappingBuilder::Add, for the oracle index `index` of a token and the internal
identifier `factorId` the factor collection gives that token: the mapping afterwards. -/
def MappingBuilder.Add (m_mapping : List WordIndex) (index : WordIndex) (factorId : Nat) :
    List WordIndex :=
  let resized :=
    if m_mapping.length ≤ factorId then resize m_mapping (factorId + 1) else m_mapping
  resized.set factorId index

/-- The mapping after the enumeration callback has been called for the pairs
(oracle index, internal identifier) of `calls`, in order, starting from `mapping`. -/
def enumerateFrom (mapping : List WordIndex) (calls : List (WordIndex × Nat)) : List WordIndex :=
  calls.foldl (fun m c => MappingBuilder.Add m c.1 c.2) mapping

/-- The mapping built by a load-time enumeration, from the empty mapping. -/
def enumerateVocab (calls : List (WordIndex × Nat)) : List WordIndex :=
  enumerateFrom [] calls

/-! ## ConstructKenLM -/

/-- The type tag a binary model file carries (lm::ngram::ModelType): the six tags the
code names, or any other value. -/
inductive ModelType where
  | PROBING
  | REST_PROBING
  | TRIE
  | QUANT_TRIE
  | ARRAY_TRIE
  | QUANT_ARRAY_TRIE
  | other (tag : Nat)
deriving DecidableEq, Repr

/-- The model backends an adapter can be built over. -/
inductive Backend where
  | ProbingModel
  | RestProbingModel
  | TrieModel
  | QuantTrieModel
  | ArrayTrieModel
  | QuantArrayTrieModel
deriving DecidableEq, Repr

/-- What ConstructKenLM ends with: an adapter over a backend is returned, or the
process is aborted. -/
inductive Constructed where
  | adapter (backend : Backend)
  | aborted
deriving DecidableEq, Repr

/-- The expression `new LanguageModelKen<backend>(file, factorType, lazy)` inside the
`try` block: `loads backend` tells whether the constructor returns (true) or raises an
exception (false), which the `catch` turns into an abort. -/
def newLanguageModelKen (loads : Backend → Bool) (backend : Backend) : Constructed :=
  if loads backend then Constructed.adapter backend else Constructed.aborted

/-- ConstructKenLM.  `recognize` is the outcome of RecognizeBinary: `none` when it
raises an exception, `some none` when it returns false (no binary signature),
`some (some t)` when it returns true with the type tag `t`. -/
def ConstructKenLM (recognize : Option (Option ModelType)) (loads : Backend → Bool) :
    Constructed :=
  match recognize with
  | none => Constructed.aborted
  | some (some model_type) =>
    match model_type with
    | ModelType.PROBING => newLanguageModelKen loads Backend.ProbingModel
    | ModelType.REST_PROBING => newLanguageModelKen loads Backend.RestProbingModel
    | ModelType.TRIE => newLanguageModelKen loads Backend.TrieModel
    | ModelType.QUANT_TRIE => newLanguageModelKen loads Backend.QuantTrieModel
    | ModelType.ARRAY_TRIE => newLanguageModelKen loads Backend.ArrayTrieModel
    | ModelType.QUANT_ARRAY_TRIE => newLanguageModelKen loads Backend.QuantArrayTrieModel
    | ModelType.other _ => Constructed.aborted
  | some none => newLanguageModelKen loads Backend.ProbingModel

/-- The backend that matches a recognized type tag, if the tag is one of the six. -/
def matchingBackend : ModelType → Option Backend
  | ModelType.PROBING => some Backend.ProbingModel
  | ModelType.REST_PROBING => some Backend.RestProbingModel
  | ModelType.TRIE => some Backend.TrieModel
  | ModelType.QUANT_TRIE => some Backend.QuantTrieModel
  | ModelType.ARRAY_TRIE => some Backend.ArrayTrieModel
  | ModelType.QUANT_ARRAY_TRIE => some Backend.QuantArrayTrieModel
  | ModelType.other _ => none

/-- The backend selected for an outcome of the signature probe that raised no
exception: the matching one for a recognized tag, the plain one when no binary
signature is recognized. -/
def selectedBackend : Option ModelType → Option Backend
  | some t => matchingBackend t
  | none => some Backend.ProbingModel

/-! ## Reference definitions for the phrase pre-score -/

/-- The running total of the phrase scorer over a sequence of symbols, from the context
`s`: a terminal adds its log-probability in the context so far and extends the context,
a placeholder restarts the context from empty and adds nothing.  The result is the
total and the context at the end. -/
def runningFold (lm : LanguageModelKen) : State → List Word → ℚ × State
  | s, [] => (0, s)
  | s, w :: ws =>
    if w.isNonTerminal then runningFold lm RuleScore.Reset.right ws
    else
      ((lm.m_ngram.Score s (TranslateID lm w)).1
          + (runningFold lm (lm.m_ngram.Score s (TranslateID lm w)).2 ws).1,
        (runningFold lm (lm.m_ngram.Score s (TranslateID lm w)).2 ws).2)

/-- The running total after the symbols `syms` of a phrase have been consumed: a leading
sentence-begin token seeds the context with the sentence-begin state and is not scored. -/
def runningTotal (lm : LanguageModelKen) : List Word → ℚ
  | [] => 0
  | w :: ws =>
    if lm.m_beginSentenceFactor = w.factor then
      (runningFold lm lm.m_ngram.BeginSentenceState ws).1
    else (runningFold lm RuleScore.Reset.right (w :: ws)).1

/-- The number of terminal words of `ws` whose mapped oracle index is 0. -/
def oovTokens (lm : LanguageModelKen) (ws : List Word) : Nat :=
  ws.countP fun w => !w.isNonTerminal && TranslateID lm w == 0

/-- The shortest prefix of a phrase that holds `k` terminal words (the whole phrase if
it has fewer). -/
def prefixOfTerminals : Nat → List Word → List Word
  | 0, _ => []
  | _ + 1, [] => []
  | k + 1, w :: ws =>
    if w.isNonTerminal then w :: prefixOfTerminals (k + 1) ws
    else w :: prefixOfTerminals k ws

/-- The local variable `before_boundary` of CalcScore, for a non-empty phrase. -/
def CalcScoreBeforeBoundary (lm : LanguageModelKen) (phrase : List Word) : ℚ :=
  let c0 : CalcState :=
    if lm.m_beginSentenceFactor = (phrase.getD 0 default).factor then
      ⟨0, RuleScore.Reset.BeginSentence lm.m_ngram, 0, 1⟩
    else ⟨0, RuleScore.Reset, 0, 0⟩
  let ngramBoundary := lm.m_ngram.Order - 1
  let end_loop := min ngramBoundary phrase.length
  let c1 := calcLoop lm phrase (end_loop - c0.position) c0
  c1.fullScore + c1.scorer.Finish

/-- A placeholder of the example phrases. -/
def exGap : Word := ⟨50, true⟩

/-- The phrase "a [X] b": a placeholder between two known words. -/
def gapPhrase : List Word := [exWord 0, exGap, exWord 1]

/-! ## EvaluateChart -/

/-- The rule scorer (lm::ngram::RuleScore<Model>) as EvaluateChart uses it, taken as a
parameter: `σ` is the scorer together with the chart state it fills, `κ` the chart
state.  `Finish` gives the score it returns and the chart state it leaves. -/
structure RuleScorer (σ κ : Type) where
  BeginSentence : σ → σ
  BeginNonTerminal : σ → κ → ℚ → σ
  NonTerminal : σ → κ → ℚ → σ
  Terminal : σ → WordIndex → σ
  Finish : σ → ℚ × κ

/-- What EvaluateChart reads from a chart hypothesis: the target side of its rule, the
map from positions of the target side to previous hypotheses, and for each previous
hypothesis its chart state for this feature and the score recorded for this feature in
its score breakdown. -/
structure ChartHypothesis (κ : Type) where
  GetCurrTargetPhrase : List Word
  nonTermIndexMap : Nat → Nat
  GetPrevHypo : Nat → κ × ℚ

/-- The body of the main loop of EvaluateChart, for the symbol at `phrasePos`. -/
def chartStep {σ κ : Type} (lm : LanguageModelKen) (S : RuleScorer σ κ)
    (hypo : ChartHypothesis κ) (ruleScore : σ) (phrasePos : Nat) : σ :=
  let word := hypo.GetCurrTargetPhrase.getD phrasePos default
  if word.isNonTerminal then
    let prevHypo := hypo.GetPrevHypo (hypo.nonTermIndexMap phrasePos)
    S.NonTerminal ruleScore prevHypo.1 prevHypo.2
  else S.Terminal ruleScore (TranslateID lm word)

/-- The main loop of EvaluateChart, `for (; phrasePos < size; phrasePos++)`, with `n`
iterations left. -/
def chartLoop {σ κ : Type} (lm : LanguageModelKen) (S : RuleScorer σ κ)
    (hypo : ChartHypothesis κ) : Nat → Nat → σ → σ
  | 0, _, ruleScore => ruleScore
  | n + 1, phrasePos, ruleScore =>
    chartLoop lm S hypo n (phrasePos + 1) (chartStep lm S hypo ruleScore phrasePos)

/-- The special cases for the first word in EvaluateChart: the scorer and `phrasePos`
afterwards. -/
def chartFirst {σ κ : Type} (lm : LanguageModelKen) (S : RuleScorer σ κ)
    (hypo : ChartHypothesis κ) (ruleScore : σ) : σ × Nat :=
  if hypo.GetCurrTargetPhrase.length ≠ 0 then
    let word := hypo.GetCurrTargetPhrase.getD 0 default
    if word.factor = lm.m_beginSentenceFactor then (S.BeginSentence ruleScore, 1)
    else if word.isNonTerminal then
      let prevHypo := hypo.GetPrevHypo (hypo.nonTermIndexMap 0)
      (S.BeginNonTerminal ruleScore prevHypo.1 prevHypo.2, 1)
    else (ruleScore, 0)
  else (ruleScore, 0)

/-- LanguageModelKen::EvaluateChart, from the scorer `ruleScore` freshly constructed
over the new chart state: the new chart state and the score assigned to the
accumulator. -/
def EvaluateChart {σ κ : Type} (lm : LanguageModelKen) (S : RuleScorer σ κ) (ruleScore : σ)
    (hypo : ChartHypothesis κ) : κ × ℚ :=
  let size := hypo.GetCurrTargetPhrase.length
  let first := chartFirst lm S hypo ruleScore
  let last := chartLoop lm S hypo (size - first.2) first.2 first.1
  ((S.Finish last).2, (S.Finish last).1)

/-- A call made to the rule scorer before `Finish`. -/
inductive RuleCall (κ : Type) where
  | BeginSentence
  | BeginNonTerminal (state : κ) (score : ℚ)
  | NonTerminal (state : κ) (score : ℚ)
  | Terminal (index : WordIndex)

/-- The scorer after a call. -/
def applyCall {σ κ : Type} (S : RuleScorer σ κ) (ruleScore : σ) : RuleCall κ → σ
  | RuleCall.BeginSentence => S.BeginSentence ruleScore
  | RuleCall.BeginNonTerminal state score => S.BeginNonTerminal ruleScore state score
  | RuleCall.NonTerminal state score => S.NonTerminal ruleScore state score
  | RuleCall.Terminal index => S.Terminal ruleScore index

/-- The call that consumes the symbol `word` standing at position `pos` of the rule
body: at position 0 the sentence-begin token seeds the scorer (tested first) and a
non-terminal is spliced with BeginNonTerminal; everywhere else a non-terminal is fed
with NonTerminal and a terminal with Terminal; the state and score of a non-terminal
are those of the previous hypothesis aligned to its position. -/
def symbolCall {κ : Type} (lm : LanguageModelKen) (hypo : ChartHypothesis κ) (pos : Nat)
    (word : Word) : RuleCall κ :=
  if pos = 0 ∧ word.factor = lm.m_beginSentenceFactor then RuleCall.BeginSentence
  else if word.isNonTerminal then
    if pos = 0 then
      RuleCall.BeginNonTerminal (hypo.GetPrevHypo (hypo.nonTermIndexMap pos)).1
        (hypo.GetPrevHypo (hypo.nonTermIndexMap pos)).2
    else
      RuleCall.NonTerminal (hypo.GetPrevHypo (hypo.nonTermIndexMap pos)).1
        (hypo.GetPrevHypo (hypo.nonTermIndexMap pos)).2
  else RuleCall.Terminal (TranslateID lm word)

/-- The calls for the symbols at positions `first`, `first + 1`, ... (`n` of them). -/
def callsFrom {κ : Type} (lm : LanguageModelKen) (hypo : ChartHypothesis κ) (first n : Nat) :
    List (RuleCall κ) :=
  (List.range' first n).map fun pos =>
    symbolCall lm hypo pos (hypo.GetCurrTargetPhrase.getD pos default)

/-- One call per symbol of the rule body, in left-to-right order. -/
def ruleCalls {κ : Type} (lm : LanguageModelKen) (hypo : ChartHypothesis κ) :
    List (RuleCall κ) :=
  callsFrom lm hypo 0 hypo.GetCurrTargetPhrase.length

/-! ## Derivation trees scored rule by rule -/

/-- The positions the loop of the walk visits with `n` iterations left, starting at
`position`: one word is scored per iteration and the position goes up by one. -/
def walkLoopPositions : Nat → Nat → List Nat
  | 0, _ => []
  | n + 1, position => position :: walkLoopPositions n (position + 1)

/-- The positions of the hypothesis whose words the walk of Evaluate scores: `begin`,
by the call before the loop, then the positions of the loop up to `adjust_end`. -/
def EvaluateWalkPositions (lm : LanguageModelKen) (hypo : Hypothesis) : List Nat :=
  let begin := hypo.GetStartPos
  let adjust_end := adjustEnd lm hypo
  begin :: walkLoopPositions (adjust_end - (begin + 1)) (begin + 1)

/-- The positions a loop of CalcScore visits with `n` iterations left. -/
def calcLoopPositions (lm : LanguageModelKen) (phrase : List Word) :
    Nat → CalcState → List Nat
  | 0, _ => []
  | n + 1, c => c.position :: calcLoopPositions lm phrase n (calcStep lm phrase c)

/-- The positions of the phrase visited by the second loop of CalcScore, the one that
runs after `before_boundary` is taken: what these positions add to the total is
`fullScore - before_boundary`, the argument of the transform in `ngramScore`. -/
def ngramScorePositions (lm : LanguageModelKen) (phrase : List Word) : List Nat :=
  if phrase.length = 0 then []
  else
    let c0 : CalcState :=
      if lm.m_beginSentenceFactor = (phrase.getD 0 default).factor then
        ⟨0, RuleScore.Reset.BeginSentence lm.m_ngram, 0, 1⟩
      else ⟨0, RuleScore.Reset, 0, 0⟩
    let ngramBoundary := lm.m_ngram.Order - 1
    let end_loop := min ngramBoundary phrase.length
    let c1 := calcLoop lm phrase (end_loop - c0.position) c0
    calcLoopPositions lm phrase (phrase.length - c1.position) c1

/-! ## Inputs at the edges of CalcScore -/

/-- The feature over the trigram model with a score transform that is monotonic and
does not fix zero: it adds 1. -/
def shiftLM : LanguageModelKen where
  m_ngram := histModel
  m_lmIdLookup := [3, 4, 5, 6, 7, 8, 9]
  m_beginSentenceFactor := 99
  OOVFeatureEnabled := true
  TransformLMScore := fun x => x + 1

/-- Modelled from the spec: the chart state of a rule (lm/left.hh is not among the
sources), idealised: in place of the boundary words of its two context fragments it
keeps the word indices of the whole yield covered so far, and whether the fragment is
seeded sentence-initial. -/
structure YieldState where
  anchored : Bool
  words : List WordIndex
deriving DecidableEq, Repr, Inhabited

/-- The context from which the first word of a fragment is scored: the sentence-begin
state when the fragment is seeded sentence-initial, the empty context otherwise. -/
def YieldState.start (m : Model) (k : YieldState) : State :=
  if k.anchored then m.BeginSentenceState else RuleScore.Reset.right

/-- The context after the words of a fragment, from which what follows it is scored. -/
def YieldState.right (m : Model) (k : YieldState) : State :=
  (foldScore m (k.start m) k.words).2

theorem foldl_scoreStep (m : Model) (ws : List WordIndex) : ∀ (a : ℚ) (s : State),
    ws.foldl (scoreStep m) (a, s) = (a + (foldScore m s ws).1, (foldScore m s ws).2) := by
  induction ws with
  | nil => intro a s; simp [foldScore]
  | cons w ws ih =>
    intro a s
    simp only [foldScore, List.foldl_cons, scoreStep]
    rw [ih, ih (0 + _)]
    simp [add_assoc]

theorem foldScore_nil (m : Model) (s : State) : foldScore m s [] = (0, s) := rfl

theorem foldScore_cons (m : Model) (s : State) (w : WordIndex) (ws : List WordIndex) :
    foldScore m s (w :: ws)
      = ((m.Score s w).1 + (foldScore m (m.Score s w).2 ws).1,
         (foldScore m (m.Score s w).2 ws).2) := by
  have h := foldl_scoreStep m ws (0 + (m.Score s w).1) (m.Score s w).2
  simp only [foldScore, List.foldl_cons, scoreStep] at h ⊢
  rw [h]
  simp

theorem foldScore_append (m : Model) (xs ys : List WordIndex) : ∀ s : State,
    foldScore m s (xs ++ ys)
      = ((foldScore m s xs).1 + (foldScore m (foldScore m s xs).2 ys).1,
         (foldScore m (foldScore m s xs).2 ys).2) := by
  induction xs with
  | nil => intro s; simp [foldScore_nil]
  | cons x xs ih =>
    intro s
    simp only [List.cons_append, foldScore_cons, ih]
    simp [add_assoc]

theorem scoreSteps_sum (m : Model) (ws : List WordIndex) : ∀ s : State,
    ((scoreSteps m s ws).map fun c => (m.Score c.1 c.2).1).sum = (foldScore m s ws).1 := by
  induction ws with
  | nil => intro s; simp [scoreSteps, foldScore_nil]
  | cons w ws ih => intro s; simp [scoreSteps, foldScore_cons, ih]

theorem scoreSteps_getLast (m : Model) (ws : List WordIndex) : ∀ s : State, ws ≠ [] →
    ∃ c, (scoreSteps m s ws).getLast? = some c ∧ (foldScore m s ws).2 = (m.Score c.1 c.2).2 := by
  induction ws with
  | nil => intro s h; exact absurd rfl h
  | cons w ws ih =>
    intro s _
    cases ws with
    | nil => exact ⟨(s, w), by simp [scoreSteps], by simp [foldScore_cons, foldScore_nil]⟩
    | cons v vs =>
      obtain ⟨c, h1, h2⟩ := ih (m.Score s w).2 (by simp)
      refine ⟨c, ?_, ?_⟩
      · rw [scoreSteps]
        rw [scoreSteps] at h1 ⊢
        rw [List.getLast?_cons_cons]
        exact h1
      · rw [foldScore_cons]; exact h2

theorem walkStep_state0 (lm : LanguageModelKen) (hypo : Hypothesis) (w : WalkState) (p : Nat) :
    (walkStep lm hypo w p).state0
      = (lm.m_ngram.Score w.state0 (TranslateID lm (hypo.GetWord p))).2 := by
  unfold walkStep
  cases h : w.state0IsRet <;> simp [WalkState.state0, h]

theorem walkStep_score (lm : LanguageModelKen) (hypo : Hypothesis) (w : WalkState) (p : Nat) :
    (walkStep lm hypo w p).score
      = w.score + (lm.m_ngram.Score w.state0 (TranslateID lm (hypo.GetWord p))).1 := by
  unfold walkStep
  cases h : w.state0IsRet <;> simp [WalkState.state0, h]

theorem walkStep_calls (lm : LanguageModelKen) (hypo : Hypothesis) (w : WalkState) (p : Nat) :
    (walkStep lm hypo w p).calls
      = w.calls ++ [(w.state0, TranslateID lm (hypo.GetWord p))] := by
  unfold walkStep
  cases h : w.state0IsRet <;> simp [WalkState.state0, h]

theorem walkLoop_spec (lm : LanguageModelKen) (hypo : Hypothesis) : ∀ (n p : Nat) (w : WalkState),
    (walkLoop lm hypo n p w).score
        = w.score + (foldScore lm.m_ngram w.state0 (spanIndices lm hypo p (p + n))).1
    ∧ (walkLoop lm hypo n p w).state0
        = (foldScore lm.m_ngram w.state0 (spanIndices lm hypo p (p + n))).2
    ∧ (walkLoop lm hypo n p w).calls
        = w.calls ++ scoreSteps lm.m_ngram w.state0 (spanIndices lm hypo p (p + n)) := by
  intro n
  induction n with
  | zero => intro p w; simp [walkLoop, spanIndices, foldScore_nil, scoreSteps]
  | succ n ih =>
    intro p w
    obtain ⟨h1, h2, h3⟩ := ih (p + 1) (walkStep lm hypo w p)
    have hspan : spanIndices lm hypo p (p + (n + 1))
        = TranslateID lm (hypo.GetWord p) :: spanIndices lm hypo (p + 1) (p + 1 + n) := by
      unfold spanIndices
      have e1 : p + (n + 1) - p = n + 1 := by omega
      have e2 : p + 1 + n - (p + 1) = n := by omega
      rw [e1, e2, List.range'_succ, List.map_cons]
    rw [walkLoop, hspan, foldScore_cons, scoreSteps]
    rw [walkStep_state0] at h1 h2 h3
    rw [walkStep_score] at h1
    rw [walkStep_calls] at h3
    refine ⟨?_, ?_, ?_⟩
    · rw [h1]; simp [add_assoc]
    · rw [h2]
    · rw [h3]; simp

theorem EvaluateWalk_spec (lm : LanguageModelKen) (hypo : Hypothesis) (ps : State)
    (h : hypo.GetStartPos < adjustEnd lm hypo) :
    (EvaluateWalk lm hypo ps).score
        = (foldScore lm.m_ngram ps (spanIndices lm hypo hypo.GetStartPos (adjustEnd lm hypo))).1
    ∧ (EvaluateWalk lm hypo ps).state0
        = (foldScore lm.m_ngram ps (spanIndices lm hypo hypo.GetStartPos (adjustEnd lm hypo))).2
    ∧ (EvaluateWalk lm hypo ps).calls
        = scoreSteps lm.m_ngram ps (spanIndices lm hypo hypo.GetStartPos (adjustEnd lm hypo)) := by
  have hspan : spanIndices lm hypo hypo.GetStartPos (adjustEnd lm hypo)
      = TranslateID lm (hypo.GetWord hypo.GetStartPos)
        :: spanIndices lm hypo (hypo.GetStartPos + 1)
            (hypo.GetStartPos + 1 + (adjustEnd lm hypo - (hypo.GetStartPos + 1))) := by
    unfold spanIndices
    have e1 : adjustEnd lm hypo - hypo.GetStartPos
        = (adjustEnd lm hypo - (hypo.GetStartPos + 1)) + 1 := by omega
    have e2 : hypo.GetStartPos + 1 + (adjustEnd lm hypo - (hypo.GetStartPos + 1))
        - (hypo.GetStartPos + 1) = adjustEnd lm hypo - (hypo.GetStartPos + 1) := by omega
    rw [e1, e2, List.range'_succ, List.map_cons]
  obtain ⟨h1, h2, h3⟩ := walkLoop_spec lm hypo (adjustEnd lm hypo - (hypo.GetStartPos + 1))
    (hypo.GetStartPos + 1)
    { score := (lm.m_ngram.Score ps (TranslateID lm (hypo.GetWord hypo.GetStartPos))).1,
      ret := (lm.m_ngram.Score ps (TranslateID lm (hypo.GetWord hypo.GetStartPos))).2,
      aux := unwritten, state0IsRet := true,
      calls := [(ps, TranslateID lm (hypo.GetWord hypo.GetStartPos))] }
  rw [hspan, foldScore_cons, scoreSteps]
  simp only [WalkState.state0, if_true] at h1 h2 h3
  refine ⟨?_, ?_, ?_⟩
  · simpa [EvaluateWalk] using h1
  · simpa [EvaluateWalk, WalkState.state0] using h2
  · simpa [EvaluateWalk] using h3

theorem adjustEnd_gt (lm : LanguageModelKen) (hypo : Hypothesis)
    (hO : 2 ≤ lm.m_ngram.Order) (hspan : hypo.GetStartPos ≤ hypo.GetEndPos) :
    hypo.GetStartPos < adjustEnd lm hypo := by
  unfold adjustEnd
  omega

theorem Evaluate_complete_eq (lm : LanguageModelKen) (hypo : Hypothesis) (ps : State)
    (out : ScoreComponentCollection) (hne : hypo.GetCurrTargetLength ≠ 0)
    (hc : hypo.IsSourceCompleted = true) :
    Evaluate lm hypo ps out
      = ((lm.m_ngram.FullScoreForgotState (LastIDs lm hypo) lm.m_ngram.EndSentence).2,
         accumulate lm out (lm.TransformLMScore ((EvaluateWalk lm hypo ps).score
           + (lm.m_ngram.FullScoreForgotState (LastIDs lm hypo) lm.m_ngram.EndSentence).1))) := by
  simp [Evaluate, hne, hc]

theorem Evaluate_short_eq (lm : LanguageModelKen) (hypo : Hypothesis) (ps : State)
    (out : ScoreComponentCollection) (hne : hypo.GetCurrTargetLength ≠ 0)
    (hc : hypo.IsSourceCompleted = false) (hspan : hypo.GetStartPos ≤ hypo.GetEndPos)
    (hshort : adjustEnd lm hypo = hypo.GetEndPos + 1) :
    Evaluate lm hypo ps out
      = ((foldScore lm.m_ngram ps
            (spanIndices lm hypo hypo.GetStartPos (hypo.GetEndPos + 1))).2,
         accumulate lm out (lm.TransformLMScore (foldScore lm.m_ngram ps
            (spanIndices lm hypo hypo.GetStartPos (hypo.GetEndPos + 1))).1)) := by
  have hlt : hypo.GetStartPos < adjustEnd lm hypo := by omega
  obtain ⟨h1, h2, _⟩ := EvaluateWalk_spec lm hypo ps hlt
  rw [hshort] at h1 h2
  rw [← h1, ← h2]
  cases hb : (EvaluateWalk lm hypo ps).state0IsRet <;>
    simp [Evaluate, hne, hc, hshort, hb, WalkState.state0]

/-- C2: in the worked example of order 3, evaluating the span "a", "b" from the begin
state adds -1.5 and returns the state ["b", "a"]; evaluating the span "c" next adds
-2.0 and returns the state ["c", "b"]; the score of the sentence so far is -3.5. -/
theorem Evaluate_worked_example :
    Evaluate exLM exHypoAB (EmptyHypothesisState exLM) [0] = (⟨[4, 3], 2⟩, [-3/2])
    ∧ Evaluate exLM exHypoC ⟨[4, 3], 2⟩ [0] = (⟨[5, 4], 2⟩, [-2])
    ∧ Evaluate exLM exHypoC (Evaluate exLM exHypoAB (EmptyHypothesisState exLM) [0]).1
        (Evaluate exLM exHypoAB (EmptyHypothesisState exLM) [0]).2 = (⟨[5, 4], 2⟩, [-7/2]) := by
  have h1 : Evaluate exLM exHypoAB (EmptyHypothesisState exLM) [0] = (⟨[4, 3], 2⟩, [-3/2]) := by
    simp [Evaluate, EvaluateWalk, walkLoop, walkStep, adjustEnd, exLM, exModel, exHypoAB, exWord,
      EmptyHypothesisState, TranslateID, WalkState.state0, accumulate, PlusEquals, PlusEqualsVec]
    norm_num
  refine ⟨h1, ?_, ?_⟩
  · simp [Evaluate, EvaluateWalk, walkLoop, adjustEnd, exLM, exModel, exHypoC, exWord,
      TranslateID, WalkState.state0, accumulate, PlusEquals, PlusEqualsVec]
  · rw [h1]
    simp [Evaluate, EvaluateWalk, walkLoop, adjustEnd, exLM, exModel, exHypoC, exWord,
      TranslateID, WalkState.state0, accumulate, PlusEquals, PlusEqualsVec]
    norm_num

/-- C3: when the appended span is empty, Evaluate returns the previous state and leaves
the score accumulator unchanged, whether or not the sentence is complete. -/
theorem Evaluate_empty_span (lm : LanguageModelKen) (hypo : Hypothesis) (ps : State)
    (out : ScoreComponentCollection) (h : hypo.GetCurrTargetLength = 0) :
    Evaluate lm hypo ps out = (ps, out) := by
  simp [Evaluate, h]

theorem Evaluate_empty_span_witness :
    exHypoEmpty.GetCurrTargetLength = 0
    ∧ exHypoEmpty.IsSourceCompleted = true
    ∧ Evaluate exLM exHypoEmpty ⟨[4, 3], 2⟩ [-3/2] = (⟨[4, 3], 2⟩, [-3/2]) :=
  ⟨rfl, rfl, Evaluate_empty_span exLM exHypoEmpty ⟨[4, 3], 2⟩ [-3/2] rfl⟩

/-- C4: on a non-empty span of a source-complete hypothesis, whatever the span length,
Evaluate adds transform(walk sum + probability of FullScoreForgotState on the trailing
words of LastIDs and the end-of-sentence index) and returns the state of that call; the
walk sum is the sum of the one-word steps over the positions from the span start to
the walk limit when the order is at least two and the span is well-formed. -/
theorem Evaluate_sentence_complete (lm : LanguageModelKen) (hypo : Hypothesis) (ps : State)
    (out : ScoreComponentCollection) (hne : hypo.GetCurrTargetLength ≠ 0)
    (hc : hypo.IsSourceCompleted = true) :
    Evaluate lm hypo ps out
      = ((lm.m_ngram.FullScoreForgotState (LastIDs lm hypo) lm.m_ngram.EndSentence).2,
         accumulate lm out (lm.TransformLMScore ((EvaluateWalk lm hypo ps).score
           + (lm.m_ngram.FullScoreForgotState (LastIDs lm hypo) lm.m_ngram.EndSentence).1)))
    ∧ (2 ≤ lm.m_ngram.Order → hypo.GetStartPos ≤ hypo.GetEndPos →
        (EvaluateWalk lm hypo ps).score
          = (foldScore lm.m_ngram ps (spanIndices lm hypo hypo.GetStartPos
              (min (hypo.GetEndPos + 1) (hypo.GetStartPos + lm.m_ngram.Order - 1)))).1) := by
  refine ⟨Evaluate_complete_eq lm hypo ps out hne hc, fun hO hspan => ?_⟩
  exact (EvaluateWalk_spec lm hypo ps (adjustEnd_gt lm hypo hO hspan)).1

theorem Evaluate_sentence_complete_witness :
    exHypoABCEnd.GetCurrTargetLength ≠ 0 ∧ exHypoABCEnd.IsSourceCompleted = true
    ∧ adjustEnd exLM exHypoABCEnd < exHypoABCEnd.GetEndPos + 1
    ∧ Evaluate exLM exHypoABCEnd (EmptyHypothesisState exLM) [0] = (⟨[2, 0], 1⟩, [-9/2]) := by
  refine ⟨by decide, rfl, by decide, ?_⟩
  rw [(Evaluate_sentence_complete exLM exHypoABCEnd (EmptyHypothesisState exLM) [0]
    (by decide) rfl).1]
  simp [EvaluateWalk, walkLoop, walkStep, adjustEnd, exLM, exModel, exHypoABCEnd, exWord,
    LastIDs, LastIDsLoop, TranslateID, accumulate, PlusEquals, PlusEqualsVec,
    EmptyHypothesisState, WalkState.state0]
  norm_num

/-- C5: on a hypothesis that is not source-complete and whose span is longer than the
walked limit, Evaluate returns GetState of the trailing words of LastIDs and adds the
transform of the walk sum alone. -/
theorem Evaluate_long_span (lm : LanguageModelKen) (hypo : Hypothesis) (ps : State)
    (out : ScoreComponentCollection) (hne : hypo.GetCurrTargetLength ≠ 0)
    (hc : hypo.IsSourceCompleted = false)
    (hlong : min (hypo.GetEndPos + 1) (hypo.GetStartPos + lm.m_ngram.Order - 1)
      < hypo.GetEndPos + 1) :
    Evaluate lm hypo ps out
      = (lm.m_ngram.GetState (LastIDs lm hypo),
         accumulate lm out (lm.TransformLMScore (EvaluateWalk lm hypo ps).score))
    ∧ (2 ≤ lm.m_ngram.Order → hypo.GetStartPos ≤ hypo.GetEndPos →
        (EvaluateWalk lm hypo ps).score
          = (foldScore lm.m_ngram ps (spanIndices lm hypo hypo.GetStartPos
              (min (hypo.GetEndPos + 1) (hypo.GetStartPos + lm.m_ngram.Order - 1)))).1) := by
  refine ⟨?_, fun hO hspan => ?_⟩
  · have hl : adjustEnd lm hypo < hypo.GetEndPos + 1 := hlong
    simp [Evaluate, hne, hc, hl]
  · exact (EvaluateWalk_spec lm hypo ps (adjustEnd_gt lm hypo hO hspan)).1

theorem Evaluate_long_span_witness :
    exHypoABC.GetCurrTargetLength ≠ 0 ∧ exHypoABC.IsSourceCompleted = false
    ∧ min (exHypoABC.GetEndPos + 1) (exHypoABC.GetStartPos + exLM.m_ngram.Order - 1)
        < exHypoABC.GetEndPos + 1
    ∧ Evaluate exLM exHypoABC (EmptyHypothesisState exLM) [0] = (⟨[5, 4], 2⟩, [-3/2]) := by
  refine ⟨by decide, rfl, by decide, ?_⟩
  rw [(Evaluate_long_span exLM exHypoABC (EmptyHypothesisState exLM) [0] (by decide) rfl
    (by decide)).1]
  simp [EvaluateWalk, walkLoop, walkStep, adjustEnd, exLM, exModel, exHypoABC, exWord, LastIDs,
    LastIDsLoop, TranslateID, accumulate, PlusEquals, PlusEqualsVec, EmptyHypothesisState,
    WalkState.state0]
  norm_num

/-- C6: on a hypothesis that is not source-complete and whose non-empty span is fully
walked, the double-buffered walk of Evaluate returns the state and adds the transformed
score of a plain left fold of the one-word step over the words of the span, from the
previous state; the state returned is the one produced by the last Score call of the
walk.  The span may have any length, odd or even. -/
theorem Evaluate_short_span (lm : LanguageModelKen) (hypo : Hypothesis) (ps : State)
    (out : ScoreComponentCollection) (hne : hypo.GetCurrTargetLength ≠ 0)
    (hc : hypo.IsSourceCompleted = false) (hspan : hypo.GetStartPos ≤ hypo.GetEndPos)
    (hshort : min (hypo.GetEndPos + 1) (hypo.GetStartPos + lm.m_ngram.Order - 1)
      = hypo.GetEndPos + 1) :
    Evaluate lm hypo ps out
      = ((foldScore lm.m_ngram ps
            (spanIndices lm hypo hypo.GetStartPos (hypo.GetEndPos + 1))).2,
         accumulate lm out (lm.TransformLMScore (foldScore lm.m_ngram ps
            (spanIndices lm hypo hypo.GetStartPos (hypo.GetEndPos + 1))).1))
    ∧ ∃ c, (EvaluateWalk lm hypo ps).calls.getLast? = some c
        ∧ (Evaluate lm hypo ps out).1 = (lm.m_ngram.Score c.1 c.2).2 := by
  have hadj : adjustEnd lm hypo = hypo.GetEndPos + 1 := hshort
  have hlt : hypo.GetStartPos < adjustEnd lm hypo := by omega
  obtain ⟨_, _, h3⟩ := EvaluateWalk_spec lm hypo ps hlt
  rw [hadj] at h3
  have hE := Evaluate_short_eq lm hypo ps out hne hc hspan hadj
  refine ⟨hE, ?_⟩
  have hids : spanIndices lm hypo hypo.GetStartPos (hypo.GetEndPos + 1) ≠ [] := by
    unfold spanIndices
    have e : hypo.GetEndPos + 1 - hypo.GetStartPos = (hypo.GetEndPos - hypo.GetStartPos) + 1 := by
      omega
    rw [e, List.range'_succ]
    simp
  obtain ⟨c, hc1, hc2⟩ := scoreSteps_getLast lm.m_ngram _ ps hids
  exact ⟨c, by rw [h3]; exact hc1, by rw [hE]; exact hc2⟩

theorem Evaluate_short_span_witness :
    (exHypoAB.GetCurrTargetLength ≠ 0 ∧ exHypoAB.IsSourceCompleted = false
      ∧ exHypoAB.GetStartPos ≤ exHypoAB.GetEndPos
      ∧ min (exHypoAB.GetEndPos + 1) (exHypoAB.GetStartPos + exLM.m_ngram.Order - 1)
          = exHypoAB.GetEndPos + 1
      ∧ Evaluate exLM exHypoAB (EmptyHypothesisState exLM) [0]
          = ((foldScore exModel (EmptyHypothesisState exLM) [3, 4]).2,
             [(foldScore exModel (EmptyHypothesisState exLM) [3, 4]).1]))
    ∧ (exHypoC.GetCurrTargetLength ≠ 0 ∧ exHypoC.IsSourceCompleted = false
      ∧ exHypoC.GetStartPos ≤ exHypoC.GetEndPos
      ∧ min (exHypoC.GetEndPos + 1) (exHypoC.GetStartPos + exLM.m_ngram.Order - 1)
          = exHypoC.GetEndPos + 1
      ∧ Evaluate exLM exHypoC ⟨[4, 3], 2⟩ [0]
          = ((foldScore exModel ⟨[4, 3], 2⟩ [5]).2, [(foldScore exModel ⟨[4, 3], 2⟩ [5]).1])) := by
  refine ⟨⟨by decide, rfl, by decide, by decide, ?_⟩, ⟨by decide, rfl, by decide, by decide, ?_⟩⟩
  · rw [(Evaluate_short_span exLM exHypoAB (EmptyHypothesisState exLM) [0] (by decide) rfl
      (by decide) (by decide)).1]
    simp [spanIndices, exHypoAB, exWord, TranslateID, exLM, accumulate, PlusEquals, PlusEqualsVec,
      List.range']
  · rw [(Evaluate_short_span exLM exHypoC ⟨[4, 3], 2⟩ [0] (by decide) rfl
      (by decide) (by decide)).1]
    simp [spanIndices, exHypoC, exWord, TranslateID, exLM, accumulate, PlusEquals, PlusEqualsVec,
      List.range']

/-- Why the statement about the walk asks for an order of at least 2: the first Score
call is made before the loop test, so with an order of 1, where the limit
min(1, 0 + 1 - 1) is the span start 0, the walk still makes one Score call, for
position 0.  Evaluate is not defined for such a model: after the walk it takes the
front of a buffer of order - 1 = 0 entries for LastIDs. -/
theorem order_one_walk_scores_first_word :
    (EvaluateWalk uniLM exHypoA (EmptyHypothesisState uniLM)).calls
        = [(EmptyHypothesisState uniLM, 3)]
    ∧ scoreSteps uniLM.m_ngram (EmptyHypothesisState uniLM)
        (spanIndices uniLM exHypoA exHypoA.GetStartPos
          (min (exHypoA.GetEndPos + 1) (exHypoA.GetStartPos + uniLM.m_ngram.Order - 1))) = []
    ∧ (EvaluateWalk uniLM exHypoA (EmptyHypothesisState uniLM)).calls
        ≠ scoreSteps uniLM.m_ngram (EmptyHypothesisState uniLM)
          (spanIndices uniLM exHypoA exHypoA.GetStartPos
            (min (exHypoA.GetEndPos + 1) (exHypoA.GetStartPos + uniLM.m_ngram.Order - 1))) := by
  have h1 : (EvaluateWalk uniLM exHypoA (EmptyHypothesisState uniLM)).calls
      = [(EmptyHypothesisState uniLM, 3)] := by
    simp [EvaluateWalk, walkLoop, adjustEnd, uniLM, uniModel, exHypoA, exWord, TranslateID]
  have h2 : scoreSteps uniLM.m_ngram (EmptyHypothesisState uniLM)
        (spanIndices uniLM exHypoA exHypoA.GetStartPos
          (min (exHypoA.GetEndPos + 1) (exHypoA.GetStartPos + uniLM.m_ngram.Order - 1))) = [] := by
    simp [spanIndices, uniLM, uniModel, exHypoA, scoreSteps]
  exact ⟨h1, h2, by rw [h1, h2]; simp⟩

/-- C7: for every model order the function is defined for (at least 2: the buffer of
order - 1 entries whose front Evaluate takes is not empty) and every non-empty span,
with limit = min(spanEnd, spanStart + order - 1), the Score calls of the walk of
Evaluate are exactly one for each position from spanStart up to (not including) limit,
in increasing order, each taking the state the previous one returned (the first the
previous state), and the walk sum is the sum of the log-probabilities of those calls. -/
theorem EvaluateWalk_steps (lm : LanguageModelKen) (hypo : Hypothesis) (ps : State)
    (hO : 2 ≤ lm.m_ngram.Order) (hspan : hypo.GetStartPos ≤ hypo.GetEndPos) :
    (EvaluateWalk lm hypo ps).calls
        = scoreSteps lm.m_ngram ps (spanIndices lm hypo hypo.GetStartPos
            (min (hypo.GetEndPos + 1) (hypo.GetStartPos + lm.m_ngram.Order - 1)))
    ∧ (EvaluateWalk lm hypo ps).calls.length
        = min (hypo.GetEndPos + 1) (hypo.GetStartPos + lm.m_ngram.Order - 1) - hypo.GetStartPos
    ∧ (EvaluateWalk lm hypo ps).score
        = ((EvaluateWalk lm hypo ps).calls.map fun c => (lm.m_ngram.Score c.1 c.2).1).sum := by
  obtain ⟨h1, _, h3⟩ := EvaluateWalk_spec lm hypo ps (adjustEnd_gt lm hypo hO hspan)
  have hlen : ∀ (ws : List WordIndex) (s : State),
      (scoreSteps lm.m_ngram s ws).length = ws.length := by
    intro ws
    induction ws with
    | nil => intro s; rfl
    | cons w ws ih => intro s; simp [scoreSteps, ih]
  refine ⟨h3, ?_, ?_⟩
  · rw [h3, hlen]
    simp [spanIndices, adjustEnd]
  · rw [h1, h3, scoreSteps_sum]

theorem EvaluateWalk_steps_witness :
    2 ≤ exLM.m_ngram.Order ∧ exHypoABC.GetStartPos ≤ exHypoABC.GetEndPos
    ∧ (EvaluateWalk exLM exHypoABC (EmptyHypothesisState exLM)).calls
        = [(⟨[1, 0], 1⟩, 3), (⟨[3, 0], 1⟩, 4)] := by
  refine ⟨by decide, by decide, ?_⟩
  rw [(EvaluateWalk_steps exLM exHypoABC (EmptyHypothesisState exLM) (by decide) (by decide)).1]
  simp [spanIndices, exHypoABC, exWord, TranslateID, exLM, exModel, scoreSteps, List.range',
    EmptyHypothesisState]

theorem wordBytes_injective (a b : Nat) (ha : a < 2 ^ 32) (hb : b < 2 ^ 32)
    (h : wordBytes a = wordBytes b) : a = b := by
  simp only [wordBytes, List.cons.injEq, and_true] at h
  obtain ⟨h0, h1, h2, h3⟩ := h
  have ea2 : a / 65536 = a / 256 / 256 := by rw [Nat.div_div_eq_div_mul]
  have ea3 : a / 16777216 = a / 256 / 256 / 256 := by
    rw [Nat.div_div_eq_div_mul, Nat.div_div_eq_div_mul]
  have eb2 : b / 65536 = b / 256 / 256 := by rw [Nat.div_div_eq_div_mul]
  have eb3 : b / 16777216 = b / 256 / 256 / 256 := by
    rw [Nat.div_div_eq_div_mul, Nat.div_div_eq_div_mul]
  rw [ea2, eb2] at h2
  rw [ea3, eb3] at h3
  have ha' : a < 4294967296 := by simpa using ha
  have hb' : b < 4294967296 := by simpa using hb
  omega

theorem wordBytes_length (a : WordIndex) : (wordBytes a).length = 4 := rfl

theorem bufferBytes_length (ws : List WordIndex) : (bufferBytes ws).length = 4 * ws.length := by
  induction ws with
  | nil => rfl
  | cons w ws ih => simp [bufferBytes, wordBytes_length, ih]; omega

theorem bufferBytes_take (ws : List WordIndex) : ∀ k : Nat,
    (bufferBytes ws).take (4 * k) = bufferBytes (ws.take k) := by
  induction ws with
  | nil => intro k; simp [bufferBytes]
  | cons w ws ih =>
    intro k
    cases k with
    | zero => simp [bufferBytes]
    | succ k =>
      have e : 4 * (k + 1) = (wordBytes w).length + 4 * k := by rw [wordBytes_length]; omega
      rw [bufferBytes, e, List.take_append, ih, List.take_succ_cons, bufferBytes]

theorem bufferBytes_injective (xs : List WordIndex) : ∀ ys : List WordIndex,
    (∀ w ∈ xs, w < 2 ^ 32) → (∀ w ∈ ys, w < 2 ^ 32) →
    bufferBytes xs = bufferBytes ys → xs = ys := by
  induction xs with
  | nil =>
    intro ys _ _ h
    cases ys with
    | nil => rfl
    | cons y ys => simp [bufferBytes, wordBytes] at h
  | cons x xs ih =>
    intro ys hx hy h
    cases ys with
    | nil => simp [bufferBytes, wordBytes] at h
    | cons y ys =>
      rw [bufferBytes, bufferBytes] at h
      obtain ⟨h1, h2⟩ := List.append_inj h (by simp [wordBytes_length])
      have hxy : x = y :=
        wordBytes_injective x y (hx x (by simp)) (hy y (by simp)) h1
      have hrest : xs = ys :=
        ih ys (fun w hw => hx w (by simp [hw])) (fun w hw => hy w (by simp [hw])) h2
      rw [hxy, hrest]

theorem memcmp_eq_zero_iff (a : List Nat) : ∀ (b : List Nat) (n : Nat),
    n ≤ a.length → n ≤ b.length → (memcmp a b n = 0 ↔ a.take n = b.take n) := by
  induction a with
  | nil =>
    intro b n ha _
    have hn : n = 0 := by simpa using ha
    subst hn
    simp [memcmp]
  | cons x xs ih =>
    intro b n ha hb
    cases n with
    | zero => simp [memcmp]
    | succ n =>
      cases b with
      | nil => simp at hb
      | cons y ys =>
        simp only [List.length_cons, Nat.add_le_add_iff_right] at ha hb
        by_cases hxy : x = y
        · subst hxy
          simp [memcmp, ih ys n ha hb]
        · have hne : (x : Int) - (y : Int) ≠ 0 := by omega
          simp [memcmp, hxy, hne]

theorem memcmp_take (a : List Nat) : ∀ (b : List Nat) (n : Nat),
    memcmp a b n = memcmp (a.take n) (b.take n) n := by
  induction a with
  | nil => intro b n; cases n <;> simp [memcmp]
  | cons x xs ih =>
    intro b n
    cases n with
    | zero => simp [memcmp]
    | succ n =>
      cases b with
      | nil => simp [memcmp]
      | cons y ys =>
        simp only [List.take_succ_cons, memcmp]
        rw [ih ys n]

theorem take_eq_iff_getElem? (xs ys : List WordIndex) (n : Nat) :
    xs.take n = ys.take n ↔ ∀ i, i < n → xs[i]? = ys[i]? := by
  constructor
  · intro h i hi
    have := congrArg (fun l => l[i]?) h
    simpa [List.getElem?_take, hi] using this
  · intro h
    apply List.ext_getElem?
    intro i
    by_cases hi : i < n
    · simp [List.getElem?_take, hi, h i hi]
    · have h1 : (xs.take n).length ≤ i := by simp; omega
      have h2 : (ys.take n).length ≤ i := by simp; omega
      rw [List.getElem?_eq_none h1, List.getElem?_eq_none h2]

theorem Compare_eq_zero_iff_take (A B : State) (hA : A.WF) (hB : B.WF) :
    KenLMState.Compare A B = 0
      ↔ A.length = B.length ∧ A.words.take A.length = B.words.take A.length := by
  unfold KenLMState.Compare
  by_cases h1 : A.length < B.length
  · simp [h1]; omega
  · by_cases h2 : A.length > B.length
    · simp [h1, h2]; omega
    · have hl : A.length = B.length := by omega
      rw [if_neg h1, if_neg h2]
      have hAl : A.length ≤ A.words.length := hA.1
      have hBl : A.length ≤ B.words.length := hl ▸ hB.1
      have hn : sizeofWordIndex * A.length = 4 * A.length := rfl
      rw [hn, memcmp_eq_zero_iff _ _ _ (by rw [bufferBytes_length]; omega)
        (by rw [bufferBytes_length]; omega)]
      rw [bufferBytes_take, bufferBytes_take]
      constructor
      · intro h
        exact ⟨hl, bufferBytes_injective _ _ (fun w hw => hA.2 w (List.mem_of_mem_take hw))
          (fun w hw => hB.2 w (List.mem_of_mem_take hw)) h⟩
      · rintro ⟨_, h⟩; rw [h]

/-- C8: Compare returns 0 exactly when the two states have the same length and their
first `length` word indices are pairwise equal; a shorter state compares less (negative)
and a longer one greater (positive), so states of different length never compare
equal; and entries at positions at or beyond `length` do not influence the result. -/
theorem Compare_spec (A B : State) (hA : A.WF) (hB : B.WF) :
    (KenLMState.Compare A B = 0
      ↔ A.length = B.length ∧ ∀ i, i < A.length → A.words[i]? = B.words[i]?)
    ∧ (A.length < B.length → KenLMState.Compare A B < 0)
    ∧ (B.length < A.length → 0 < KenLMState.Compare A B)
    ∧ (A.length ≠ B.length → KenLMState.Compare A B ≠ 0)
    ∧ (∀ A' B' : State, A'.length = A.length → B'.length = B.length →
        A'.words.take A.length = A.words.take A.length →
        B'.words.take B.length = B.words.take B.length →
        KenLMState.Compare A' B' = KenLMState.Compare A B) := by
  refine ⟨?_, ?_, ?_, ?_, ?_⟩
  · rw [Compare_eq_zero_iff_take A B hA hB]
    constructor
    · rintro ⟨hl, ht⟩
      exact ⟨hl, (take_eq_iff_getElem? _ _ _).1 ht⟩
    · rintro ⟨hl, ht⟩
      exact ⟨hl, (take_eq_iff_getElem? _ _ _).2 ht⟩
  · intro h
    simp [KenLMState.Compare, h]
  · intro h
    have h' : ¬ A.length < B.length := by omega
    simp [KenLMState.Compare, h, h']
  · intro h hc
    exact h ((Compare_eq_zero_iff_take A B hA hB).1 hc).1
  · intro A' B' hlA hlB htA htB
    unfold KenLMState.Compare
    rw [hlA, hlB]
    by_cases h1 : A.length < B.length
    · simp [h1]
    · by_cases h2 : A.length > B.length
      · simp [h1, h2]
      · have hl : A.length = B.length := by omega
        simp only [h1, h2, if_false, sizeofWordIndex]
        rw [memcmp_take (bufferBytes A'.words), memcmp_take (bufferBytes A.words)]
        rw [bufferBytes_take, bufferBytes_take, bufferBytes_take, bufferBytes_take, htA]
        rw [← hl] at htB
        rw [htB]

theorem Compare_spec_witness :
    State.WF ⟨[4, 3], 2⟩ ∧ State.WF ⟨[4, 9], 1⟩
    ∧ 0 < KenLMState.Compare ⟨[4, 3], 2⟩ ⟨[4, 9], 1⟩
    ∧ KenLMState.Compare ⟨[4, 77], 1⟩ ⟨[4, 9], 1⟩ = 0 := by
  have hA : State.WF ⟨[4, 3], 2⟩ := by decide
  have hB : State.WF ⟨[4, 9], 1⟩ := by decide
  exact ⟨hA, hB, (Compare_spec ⟨[4, 3], 2⟩ ⟨[4, 9], 1⟩ hA hB).2.2.1 (by decide),
    by decide⟩

theorem range'_map_getD {α β : Type} (f : α → β) (d : α) (L : List α) : ∀ (n a : Nat),
    a + n ≤ L.length →
    (List.range' a n).map (fun i => f (L.getD i d)) = ((L.drop a).take n).map f := by
  intro n
  induction n with
  | zero => intro a _; simp
  | succ n ih =>
    intro a h
    have ha : a < L.length := by omega
    rw [List.range'_succ, List.map_cons, ih (a + 1) (by omega)]
    rw [List.drop_eq_getElem_cons ha, List.take_succ_cons, List.map_cons]
    simp [List.getD_eq_getElem?_getD, List.getElem?_eq_getElem ha]

theorem spanIndices_appendPhrase (lm : LanguageModelKen) (pre p : List Word) (c : Bool) :
    spanIndices lm (appendPhrase pre p c) pre.length (pre.length + p.length)
      = p.map (TranslateID lm) := by
  unfold spanIndices
  have e : pre.length + p.length - pre.length = p.length := by omega
  rw [e]
  have h := range'_map_getD (TranslateID lm) default (pre ++ p) p.length pre.length (by simp)
  simp only [appendPhrase]
  rw [h]
  simp

theorem LastIDsLoop_spec (lm : LanguageModelKen) (hypo : Hypothesis) (W : List Word)
    (hW : ∀ i, hypo.GetWord i = W.getD i default) : ∀ (room k : Nat), k ≤ W.length →
    LastIDsLoop lm hypo room ((k : Int) - 1)
      = ((((W.take k).map (TranslateID lm)).reverse) ++ [lm.m_ngram.BeginSentence]).take room := by
  intro room
  induction room with
  | zero => intro k _; simp [LastIDsLoop]
  | succ room ih =>
    intro k hk
    cases k with
    | zero => simp [LastIDsLoop]
    | succ j =>
      have hj : j < W.length := by omega
      have hpos : ((j + 1 : Nat) : Int) - 1 ≠ -1 := by omega
      have hnat : (((j + 1 : Nat) : Int) - 1).toNat = j := by omega
      have hprev : ((j + 1 : Nat) : Int) - 1 - 1 = (j : Int) - 1 := by omega
      have ht : W.take (j + 1) = W.take j ++ [W[j]] := by
        rw [List.take_succ, List.getElem?_eq_getElem hj]; rfl
      have hd : W.getD j default = W[j] := by
        simp [List.getD_eq_getElem?_getD, List.getElem?_eq_getElem hj]
      rw [LastIDsLoop, if_neg hpos, hnat, hprev, ih j (by omega), hW j, ht, hd]
      simp only [List.map_append, List.map_cons, List.map_nil, List.reverse_append,
        List.reverse_cons, List.reverse_nil, List.nil_append, List.cons_append,
        List.take_succ_cons]

theorem LastIDs_appendPhrase (lm : LanguageModelKen) (pre p : List Word) (c : Bool)
    (hp : p ≠ []) :
    LastIDs lm (appendPhrase pre p c)
      = trailingWords lm.m_ngram ((pre ++ p).map (TranslateID lm)) := by
  have hlen : 1 ≤ p.length := by
    cases p with
    | nil => exact absurd rfl hp
    | cons x xs => simp
  have h := LastIDsLoop_spec lm (appendPhrase pre p c) (pre ++ p) (fun _ => rfl)
    (lm.m_ngram.Order - 1) (pre ++ p).length (le_refl _)
  have hpos : (((appendPhrase pre p c).GetEndPos : Nat) : Int)
      = (((pre ++ p).length : Nat) : Int) - 1 := by
    simp only [appendPhrase, List.length_append]
    omega
  rw [List.take_length] at h
  unfold LastIDs trailingWords
  rw [hpos, h]

theorem accumulate_headD (lm : LanguageModelKen) (x : ℚ) :
    (accumulate lm [0] x).headD 0 = x := by
  unfold accumulate
  cases lm.OOVFeatureEnabled <;> simp [PlusEquals, PlusEqualsVec]

theorem Evaluate_appendPhrase_middle (lm : LanguageModelKen) (pre p : List Word) (ps : State)
    (h1 : 1 ≤ p.length) (h2 : p.length ≤ lm.m_ngram.Order - 1) :
    Evaluate lm (appendPhrase pre p false) ps [0]
      = ((foldScore lm.m_ngram ps (p.map (TranslateID lm))).2,
         accumulate lm [0]
           (lm.TransformLMScore (foldScore lm.m_ngram ps (p.map (TranslateID lm))).1)) := by
  have hend : (appendPhrase pre p false).GetEndPos + 1 = pre.length + p.length := by
    simp only [appendPhrase]; omega
  have h := Evaluate_short_eq lm (appendPhrase pre p false) ps [0]
    (by simp only [appendPhrase]; omega) rfl (by simp only [appendPhrase]; omega)
    (by unfold adjustEnd; rw [hend]; simp only [appendPhrase]; omega)
  rw [hend] at h
  have hs := spanIndices_appendPhrase lm pre p false
  simp only [appendPhrase] at hs h ⊢
  rw [hs] at h
  exact h

theorem Evaluate_appendPhrase_last (lm : LanguageModelKen) (pre p : List Word) (ps : State)
    (h1 : 1 ≤ p.length) (h2 : p.length ≤ lm.m_ngram.Order - 1) :
    (Evaluate lm (appendPhrase pre p true) ps [0]).2
      = accumulate lm [0] (lm.TransformLMScore
          ((foldScore lm.m_ngram ps (p.map (TranslateID lm))).1
            + (lm.m_ngram.FullScoreForgotState
                (trailingWords lm.m_ngram ((pre ++ p).map (TranslateID lm)))
                lm.m_ngram.EndSentence).1)) := by
  have hp : p ≠ [] := by
    intro h; rw [h] at h1; simp at h1
  have hend : (appendPhrase pre p true).GetEndPos + 1 = pre.length + p.length := by
    simp only [appendPhrase]; omega
  have hadj : adjustEnd lm (appendPhrase pre p true) = pre.length + p.length := by
    unfold adjustEnd
    rw [hend]
    simp only [appendPhrase]
    omega
  have hlt : (appendPhrase pre p true).GetStartPos < adjustEnd lm (appendPhrase pre p true) := by
    rw [hadj]; simp only [appendPhrase]; omega
  have hw := (EvaluateWalk_spec lm (appendPhrase pre p true) ps hlt).1
  rw [hadj] at hw
  have hs := spanIndices_appendPhrase lm pre p true
  have hstart : (appendPhrase pre p true).GetStartPos = pre.length := rfl
  rw [hstart, hs] at hw
  rw [Evaluate_complete_eq lm (appendPhrase pre p true) ps [0]
    (by simp only [appendPhrase]; omega) rfl]
  rw [LastIDs_appendPhrase lm pre p true hp, hw]

theorem EvaluatePhrases_sum (lm : LanguageModelKen)
    (hT : ∀ a b : ℚ, lm.TransformLMScore (a + b) = lm.TransformLMScore a + lm.TransformLMScore b) :
    ∀ (phrases : List (List Word)) (pre : List Word) (ps : State), phrases ≠ [] →
    (∀ p ∈ phrases, 1 ≤ p.length ∧ p.length ≤ lm.m_ngram.Order - 1) →
    (EvaluatePhrases lm pre ps phrases).sum
      = lm.TransformLMScore
          ((foldScore lm.m_ngram ps (phrases.flatten.map (TranslateID lm))).1
            + (lm.m_ngram.FullScoreForgotState
                (trailingWords lm.m_ngram ((pre ++ phrases.flatten).map (TranslateID lm)))
                lm.m_ngram.EndSentence).1) := by
  intro phrases
  induction phrases with
  | nil => intro pre ps h; exact absurd rfl h
  | cons p rest ih =>
    intro pre ps _ hlen
    obtain ⟨h1, h2⟩ := hlen p (by simp)
    cases rest with
    | nil =>
      simp only [EvaluatePhrases, List.isEmpty_nil, List.sum_cons, List.sum_nil, add_zero,
        List.flatten_cons, List.flatten_nil, List.append_nil]
      rw [Evaluate_appendPhrase_last lm pre p ps h1 h2, accumulate_headD]
    | cons q rest =>
      have hrest := ih (pre ++ p) (foldScore lm.m_ngram ps (p.map (TranslateID lm))).2
        (by simp) (fun r hr => hlen r (by simp [hr]))
      rw [EvaluatePhrases]
      simp only [List.isEmpty_cons, List.sum_cons]
      rw [Evaluate_appendPhrase_middle lm pre p ps h1 h2]
      simp only [accumulate_headD]
      rw [hrest, ← hT]
      congr 1
      have e1 : (p :: q :: rest).flatten = p ++ (q :: rest).flatten := List.flatten_cons
      rw [e1]
      simp only [List.map_append, List.append_assoc]
      rw [foldScore_append]
      ring

theorem wordProbs_sum (m : Model) (ws : List WordIndex) : ∀ s : State,
    (wordProbs m s ws).sum = (foldScore m s ws).1 := by
  induction ws with
  | nil => intro s; simp [wordProbs, foldScore_nil]
  | cons w ws ih => intro s; simp [wordProbs, foldScore_cons, ih]

theorem wordProbs_length (m : Model) (ws : List WordIndex) : ∀ s : State,
    (wordProbs m s ws).length = ws.length := by
  induction ws with
  | nil => intro s; rfl
  | cons w ws ih => intro s; simp [wordProbs, ih]

theorem wordProbs_append (m : Model) (xs ys : List WordIndex) : ∀ s : State,
    wordProbs m s (xs ++ ys)
      = wordProbs m s xs ++ wordProbs m (foldScore m s xs).2 ys := by
  induction xs with
  | nil => intro s; simp [wordProbs, foldScore_nil]
  | cons x xs ih => intro s; simp [wordProbs, foldScore_cons, ih]

theorem wordProbs_take (m : Model) (ws : List WordIndex) : ∀ (s : State) (b : Nat),
    (wordProbs m s ws).take b = wordProbs m s (ws.take b) := by
  induction ws with
  | nil => intro s b; simp [wordProbs]
  | cons w ws ih =>
    intro s b
    cases b with
    | zero => simp [wordProbs]
    | succ b => simp [wordProbs, ih]

theorem wordProbs_drop (m : Model) (ws : List WordIndex) : ∀ (s : State) (b : Nat),
    (wordProbs m s ws).drop b = wordProbs m (foldScore m s (ws.take b)).2 (ws.drop b) := by
  induction ws with
  | nil => intro s b; simp [wordProbs]
  | cons w ws ih =>
    intro s b
    cases b with
    | zero => simp [wordProbs, foldScore_nil]
    | succ b => simp [wordProbs, ih, foldScore_cons]

theorem spanIndices_appendPhrase_take (lm : LanguageModelKen) (pre p : List Word) (c : Bool)
    (k : Nat) (hk : k ≤ p.length) :
    spanIndices lm (appendPhrase pre p c) pre.length (pre.length + k)
      = (p.take k).map (TranslateID lm) := by
  unfold spanIndices
  have e : pre.length + k - pre.length = k := by omega
  rw [e]
  have h := range'_map_getD (TranslateID lm) default (pre ++ p) k pre.length
    (by simp; omega)
  simp only [appendPhrase]
  rw [h]
  simp

theorem adjustEnd_appendPhrase (lm : LanguageModelKen) (pre p : List Word) (c : Bool)
    (hp : 1 ≤ p.length) :
    adjustEnd lm (appendPhrase pre p c)
      = pre.length + min p.length (lm.m_ngram.Order - 1) := by
  have hO := lm.m_ngram.Order_pos
  unfold adjustEnd
  simp only [appendPhrase]
  omega

theorem EvaluateWalk_appendPhrase (lm : LanguageModelKen) (pre p : List Word) (c : Bool)
    (ps : State) (hp : 1 ≤ p.length) (hO : 2 ≤ lm.m_ngram.Order) :
    (EvaluateWalk lm (appendPhrase pre p c) ps).score
      = (foldScore lm.m_ngram ps ((p.take (lm.m_ngram.Order - 1)).map (TranslateID lm))).1 := by
  have hadj := adjustEnd_appendPhrase lm pre p c hp
  have hlt : (appendPhrase pre p c).GetStartPos < adjustEnd lm (appendPhrase pre p c) := by
    rw [hadj]; simp only [appendPhrase]; omega
  have hw := (EvaluateWalk_spec lm (appendPhrase pre p c) ps hlt).1
  rw [hadj] at hw
  have hstart : (appendPhrase pre p c).GetStartPos = pre.length := rfl
  rw [hstart, spanIndices_appendPhrase_take lm pre p c _ (Nat.min_le_left _ _)] at hw
  rw [hw]
  congr 3
  by_cases h : lm.m_ngram.Order - 1 ≤ p.length
  · rw [Nat.min_eq_right h]
  · rw [Nat.min_eq_left (by omega), List.take_of_length_le (le_refl _),
      List.take_of_length_le (by omega)]

theorem Evaluate_appendPhrase_score (lm : LanguageModelKen) (pre p : List Word) (ps : State)
    (hp : 1 ≤ p.length) (hO : 2 ≤ lm.m_ngram.Order) :
    (Evaluate lm (appendPhrase pre p false) ps [0]).2
      = accumulate lm [0] (lm.TransformLMScore
          (foldScore lm.m_ngram ps ((p.take (lm.m_ngram.Order - 1)).map (TranslateID lm))).1) := by
  have hw := EvaluateWalk_appendPhrase lm pre p false ps hp hO
  have hne : (appendPhrase pre p false).GetCurrTargetLength ≠ 0 := by
    simp only [appendPhrase]; omega
  have hc : (appendPhrase pre p false).IsSourceCompleted = false := rfl
  rw [← hw]
  by_cases hl : adjustEnd lm (appendPhrase pre p false) < (appendPhrase pre p false).GetEndPos + 1
  · simp [Evaluate, hne, hc, hl]
  · cases hb : (EvaluateWalk lm (appendPhrase pre p false) ps).state0IsRet <;>
      simp [Evaluate, hne, hc, hl, hb]

theorem Evaluate_appendPhrase_state (lm : LanguageModelKen) (pre p : List Word) (ps : State)
    (hp : 1 ≤ p.length) (hO : 2 ≤ lm.m_ngram.Order) :
    (Evaluate lm (appendPhrase pre p false) ps [0]).1
      = if lm.m_ngram.Order - 1 < p.length then
          lm.m_ngram.GetState (trailingWords lm.m_ngram ((pre ++ p).map (TranslateID lm)))
        else (foldScore lm.m_ngram ps (p.map (TranslateID lm))).2 := by
  have hpne : p ≠ [] := by
    intro h; rw [h] at hp; simp at hp
  have hne : (appendPhrase pre p false).GetCurrTargetLength ≠ 0 := by
    simp only [appendPhrase]; omega
  have hc : (appendPhrase pre p false).IsSourceCompleted = false := rfl
  have hadj := adjustEnd_appendPhrase lm pre p false hp
  have hend : (appendPhrase pre p false).GetEndPos + 1 = pre.length + p.length := by
    simp only [appendPhrase]; omega
  by_cases hlong : lm.m_ngram.Order - 1 < p.length
  · have hl : adjustEnd lm (appendPhrase pre p false)
        < (appendPhrase pre p false).GetEndPos + 1 := by
      rw [hadj, hend]; omega
    rw [if_pos hlong, ← LastIDs_appendPhrase lm pre p false hpne]
    simp [Evaluate, hne, hc, hl]
  · rw [if_neg hlong]
    exact congrArg Prod.fst (Evaluate_appendPhrase_middle lm pre p ps hp (by omega))

theorem EvaluatePhrases_walked (lm : LanguageModelKen)
    (hT : ∀ a b : ℚ, lm.TransformLMScore (a + b) = lm.TransformLMScore a + lm.TransformLMScore b)
    (hO : 2 ≤ lm.m_ngram.Order)
    (hGet : ∀ ws : List WordIndex, lm.m_ngram.GetState (trailingWords lm.m_ngram ws)
      = (foldScore lm.m_ngram lm.m_ngram.BeginSentenceState ws).2) :
    ∀ (phrases : List (List Word)) (pre : List Word), phrases ≠ [] →
    (∀ p ∈ phrases, p ≠ []) →
    (EvaluatePhrases lm pre
        (foldScore lm.m_ngram lm.m_ngram.BeginSentenceState (pre.map (TranslateID lm))).2
        phrases).sum
      = lm.TransformLMScore
          (walkedProbs (lm.m_ngram.Order - 1) (phrases.map List.length)
              (wordProbs lm.m_ngram
                (foldScore lm.m_ngram lm.m_ngram.BeginSentenceState
                  (pre.map (TranslateID lm))).2
                (phrases.flatten.map (TranslateID lm)))
            + (lm.m_ngram.FullScoreForgotState
                (trailingWords lm.m_ngram ((pre ++ phrases.flatten).map (TranslateID lm)))
                lm.m_ngram.EndSentence).1) := by
  intro phrases
  induction phrases with
  | nil => intro pre h; exact absurd rfl h
  | cons p rest ih =>
    intro pre _ hnonempty
    have hp : 1 ≤ p.length := by
      have := hnonempty p (by simp)
      cases p with
      | nil => exact absurd rfl this
      | cons x xs => simp
    have hwalked : ∀ (tail : List WordIndex) (s : State),
        ((wordProbs lm.m_ngram s (p.map (TranslateID lm) ++ tail)).take
            (min p.length (lm.m_ngram.Order - 1))).sum
          = (foldScore lm.m_ngram s
              ((p.take (lm.m_ngram.Order - 1)).map (TranslateID lm))).1 := by
      intro tail s
      rw [wordProbs_take, wordProbs_sum]
      congr 2
      rw [List.take_append_of_le_length (by simp), List.map_take]
      by_cases h : lm.m_ngram.Order - 1 ≤ p.length
      · rw [Nat.min_eq_right h]
      · rw [Nat.min_eq_left (by omega), List.take_of_length_le (by simp),
          List.take_of_length_le (by simp; omega)]
    cases rest with
    | nil =>
      have hpne : p ≠ [] := hnonempty p (by simp)
      simp only [EvaluatePhrases, List.isEmpty_nil, List.sum_cons, List.sum_nil, add_zero,
        List.flatten_cons, List.flatten_nil, List.append_nil, List.map_cons, List.map_nil,
        walkedProbs]
      rw [Evaluate_complete_eq lm (appendPhrase pre p true) _ [0]
        (by simp only [appendPhrase]; omega) rfl, accumulate_headD,
        LastIDs_appendPhrase lm pre p true hpne,
        EvaluateWalk_appendPhrase lm pre p true _ hp hO]
      have h := hwalked [] (foldScore lm.m_ngram lm.m_ngram.BeginSentenceState
        (pre.map (TranslateID lm))).2
      rw [List.append_nil] at h
      rw [h]
    | cons q rest =>
      have hstate : (Evaluate lm (appendPhrase pre p false)
            (foldScore lm.m_ngram lm.m_ngram.BeginSentenceState
              (pre.map (TranslateID lm))).2 [0]).1
          = (foldScore lm.m_ngram lm.m_ngram.BeginSentenceState
              ((pre ++ p).map (TranslateID lm))).2 := by
        rw [Evaluate_appendPhrase_state lm pre p _ hp hO]
        by_cases hlong : lm.m_ngram.Order - 1 < p.length
        · rw [if_pos hlong, hGet]
        · rw [if_neg hlong, List.map_append, foldScore_append]
      have hrest := ih (pre ++ p) (by simp) (fun r hr => hnonempty r (by simp [hr]))
      rw [EvaluatePhrases]
      simp only [List.isEmpty_cons, List.sum_cons]
      rw [hstate, hrest, Evaluate_appendPhrase_score lm pre p _ hp hO, accumulate_headD, ← hT]
      congr 1
      have e1 : (p :: q :: rest).flatten = p ++ (q :: rest).flatten := List.flatten_cons
      have hw : ∀ X : List ℚ,
          walkedProbs (lm.m_ngram.Order - 1) ((p :: q :: rest).map List.length) X
            = (X.take (min p.length (lm.m_ngram.Order - 1))).sum
              + walkedProbs (lm.m_ngram.Order - 1) ((q :: rest).map List.length)
                  (X.drop p.length) := fun _ => rfl
      have e2 : (p.map (TranslateID lm) ++ (q :: rest).flatten.map (TranslateID lm)).take p.length
          = p.map (TranslateID lm) := by
        rw [List.take_append_of_le_length (by simp), List.take_of_length_le (by simp)]
      have e3 : (p.map (TranslateID lm) ++ (q :: rest).flatten.map (TranslateID lm)).drop p.length
          = (q :: rest).flatten.map (TranslateID lm) := by
        rw [List.drop_append_of_le_length (by simp), List.drop_of_length_le (by simp)]
        simp
      rw [e1, hw]
      simp only [List.map_append, List.append_assoc]
      rw [hwalked, wordProbs_drop, e2, e3, foldScore_append]
      ring

/-- C1, as stated, fails on a phrase longer than order - 1 words: with the bigram model
(every word scores -1, FullScoreForgotState agreeing with the Score step) the single
two-word phrase "a b", marked sentence-complete, gets -2 from Evaluate (the first word
and the end of sentence), while the atomic score of "a b" is -3. -/
theorem long_phrase_breaks_additivity :
    (EvaluatePhrases biLM [] (EmptyHypothesisState biLM) [[exWord 0, exWord 1]]).sum = -2
    ∧ atomicScore biLM.m_ngram ([[exWord 0, exWord 1]].flatten.map (TranslateID biLM)) = -3
    ∧ (EvaluatePhrases biLM [] (EmptyHypothesisState biLM) [[exWord 0, exWord 1]]).sum
        ≠ biLM.TransformLMScore
            (atomicScore biLM.m_ngram ([[exWord 0, exWord 1]].flatten.map (TranslateID biLM))) := by
  have h1 : (EvaluatePhrases biLM [] (EmptyHypothesisState biLM) [[exWord 0, exWord 1]]).sum
      = -2 := by
    simp [EvaluatePhrases, Evaluate, EvaluateWalk, walkLoop, adjustEnd, appendPhrase, biLM,
      biModel, exWord, TranslateID, accumulate, PlusEquals, PlusEqualsVec, LastIDs, LastIDsLoop,
      EmptyHypothesisState]
    norm_num
  have h2 : atomicScore biLM.m_ngram ([[exWord 0, exWord 1]].flatten.map (TranslateID biLM))
      = -3 := by
    simp [atomicScore, foldScore, scoreStep, biLM, biModel, exWord, TranslateID]
    norm_num
  refine ⟨h1, h2, ?_⟩
  rw [h1, h2]
  simp [biLM]

theorem histState_cons_take (w : WordIndex) (ctx : List WordIndex) :
    histState (w :: ctx.take 2) = histState (w :: ctx) := by
  simp [histState, List.take_succ_cons, List.take_take]

theorem histModel_fold_state (ws : List WordIndex) : ∀ ctx : List WordIndex,
    (foldScore histModel (histState ctx) ws).2 = histState (ws.reverse ++ ctx) := by
  induction ws with
  | nil => intro ctx; simp [foldScore_nil]
  | cons w ws ih =>
    intro ctx
    rw [foldScore_cons]
    have hstep : (histModel.Score (histState ctx) w).2 = histState (w :: ctx) := by
      show histState (w :: (ctx.take 2).take (ctx.take 2).length) = histState (w :: ctx)
      rw [List.take_length]
      exact histState_cons_take w ctx
    rw [hstep, ih (w :: ctx)]
    simp

theorem histModel_GetState (ws : List WordIndex) :
    histModel.GetState (trailingWords histModel ws)
      = (foldScore histModel histModel.BeginSentenceState ws).2 := by
  have h := histModel_fold_state ws [1]
  have hb : histModel.BeginSentenceState = histState [1] := rfl
  rw [hb, h]
  simp [histModel, trailingWords, histState, List.take_take]

/-- C1, amended: for a candidate built by repeated Evaluate calls from the
sentence-begin state, one per appended phrase, every phrase non-empty and the last call
marked sentence-complete, with a model of order at least 2, an additive score transform
and a model whose FullScoreForgotState on the trailing raw words of the sentence gives
the log-probability of the Score step for the end-of-sentence symbol from the state the
atomic walk reaches: when no phrase has more than order - 1 words, the incremental
scores sum to the transform of the atomic score of the same word sequence; and in
general, when GetState on trailing raw words gives the state the atomic walk reaches,
they sum to the transform of the atomic log-probabilities of the first order - 1 words
of each phrase plus that of the end-of-sentence symbol. -/
theorem Evaluate_additive (lm : LanguageModelKen) (phrases : List (List Word))
    (hT : ∀ a b : ℚ, lm.TransformLMScore (a + b) = lm.TransformLMScore a + lm.TransformLMScore b)
    (hO : 2 ≤ lm.m_ngram.Order)
    (hne : phrases ≠ [])
    (hnonempty : ∀ p ∈ phrases, p ≠ [])
    (hEnd : (lm.m_ngram.FullScoreForgotState
              (trailingWords lm.m_ngram (phrases.flatten.map (TranslateID lm)))
              lm.m_ngram.EndSentence).1
          = (lm.m_ngram.Score
              (foldScore lm.m_ngram lm.m_ngram.BeginSentenceState
                (phrases.flatten.map (TranslateID lm))).2
              lm.m_ngram.EndSentence).1) :
    ((∀ p ∈ phrases, p.length ≤ lm.m_ngram.Order - 1) →
      (EvaluatePhrases lm [] (EmptyHypothesisState lm) phrases).sum
        = lm.TransformLMScore (atomicScore lm.m_ngram (phrases.flatten.map (TranslateID lm))))
    ∧ ((∀ ws : List WordIndex, lm.m_ngram.GetState (trailingWords lm.m_ngram ws)
          = (foldScore lm.m_ngram lm.m_ngram.BeginSentenceState ws).2) →
      (EvaluatePhrases lm [] (EmptyHypothesisState lm) phrases).sum
        = lm.TransformLMScore
            (walkedProbs (lm.m_ngram.Order - 1) (phrases.map List.length)
                (wordProbs lm.m_ngram lm.m_ngram.BeginSentenceState
                  (phrases.flatten.map (TranslateID lm)))
              + (lm.m_ngram.Score
                  (foldScore lm.m_ngram lm.m_ngram.BeginSentenceState
                    (phrases.flatten.map (TranslateID lm))).2
                  lm.m_ngram.EndSentence).1)) := by
  constructor
  · intro hshort
    have hlen : ∀ p ∈ phrases, 1 ≤ p.length ∧ p.length ≤ lm.m_ngram.Order - 1 := by
      intro p hp
      refine ⟨?_, hshort p hp⟩
      have := hnonempty p hp
      cases p with
      | nil => exact absurd rfl this
      | cons x xs => simp
    rw [EvaluatePhrases_sum lm hT phrases [] (EmptyHypothesisState lm) hne hlen]
    rw [List.nil_append, hEnd]
    rfl
  · intro hGet
    have h := EvaluatePhrases_walked lm hT hO hGet phrases [] hne hnonempty
    simp only [List.map_nil, foldScore_nil, List.nil_append] at h
    rw [← hEnd]
    exact h

theorem Evaluate_additive_witness :
    (∀ a b : ℚ, histLM.TransformLMScore (a + b)
        = histLM.TransformLMScore a + histLM.TransformLMScore b)
    ∧ 2 ≤ histLM.m_ngram.Order
    ∧ (∀ p ∈ [[exWord 0, exWord 1], [exWord 2]], p ≠ [] ∧ p.length ≤ histLM.m_ngram.Order - 1)
    ∧ (EvaluatePhrases histLM [] (EmptyHypothesisState histLM)
        [[exWord 0, exWord 1], [exWord 2]]).sum = -224
    ∧ atomicScore histModel [3, 4, 5] = -224
    ∧ (EvaluatePhrases histLM [] (EmptyHypothesisState histLM)
        [[exWord 0, exWord 1, exWord 2], [exWord 3]]).sum = -13 + -44 + -96 + -112
    ∧ atomicScore histModel [3, 4, 5, 6] = -13 + -44 + -75 + -96 + -112 := by
  have hT : ∀ a b : ℚ, histLM.TransformLMScore (a + b)
      = histLM.TransformLMScore a + histLM.TransformLMScore b := fun _ _ => rfl
  have hO : 2 ≤ histLM.m_ngram.Order := by decide
  have hlen : ∀ p ∈ [[exWord 0, exWord 1], [exWord 2]],
      p ≠ [] ∧ p.length ≤ histLM.m_ngram.Order - 1 := by
    intro p hp
    simp only [List.mem_cons, List.mem_singleton, List.not_mem_nil, or_false] at hp
    rcases hp with rfl | rfl <;> simp [histLM, histModel]
  have hA : atomicScore histModel [3, 4, 5] = -224 := by
    simp [atomicScore, foldScore, scoreStep, histModel, histState, histProb]
    norm_num
  have hB : atomicScore histModel [3, 4, 5, 6] = -13 + -44 + -75 + -96 + -112 := by
    simp [atomicScore, foldScore, scoreStep, histModel, histState, histProb]
    norm_num
  refine ⟨hT, hO, hlen, ?_, hA, ?_, hB⟩
  · rw [(Evaluate_additive histLM [[exWord 0, exWord 1], [exWord 2]] hT hO (by simp)
      (fun p hp => (hlen p hp).1)
      (by simp [trailingWords, foldScore, scoreStep, histLM, histModel, histState, histProb,
            exWord, TranslateID])).1 (fun p hp => (hlen p hp).2)]
    simp [atomicScore, foldScore, scoreStep, histLM, histModel, histState, histProb, exWord,
      TranslateID]
    norm_num
  · rw [(Evaluate_additive histLM [[exWord 0, exWord 1, exWord 2], [exWord 3]] hT hO (by simp)
      (by simp)
      (by simp [trailingWords, foldScore, scoreStep, histLM, histModel, histState, histProb,
            exWord, TranslateID])).2 histModel_GetState]
    simp [walkedProbs, wordProbs, foldScore, scoreStep, histLM, histModel, histState, histProb,
      exWord, TranslateID]
    norm_num

theorem calcLoop_terminals (lm : LanguageModelKen) (phrase : List Word)
    (hterm : ∀ w ∈ phrase, w.isNonTerminal = false) : ∀ (n : Nat) (c : CalcState),
    c.position + n ≤ phrase.length →
    (calcLoop lm phrase n c).fullScore = c.fullScore
    ∧ (calcLoop lm phrase n c).scorer.prob_
        = c.scorer.prob_ + (foldScore lm.m_ngram c.scorer.right
            (((phrase.drop c.position).take n).map (TranslateID lm))).1
    ∧ (calcLoop lm phrase n c).scorer.right
        = (foldScore lm.m_ngram c.scorer.right
            (((phrase.drop c.position).take n).map (TranslateID lm))).2
    ∧ (calcLoop lm phrase n c).oovCount
        = c.oovCount + ((((phrase.drop c.position).take n).map (TranslateID lm)).count 0)
    ∧ (calcLoop lm phrase n c).position = c.position + n := by
  intro n
  induction n with
  | zero => intro c _; simp [calcLoop, foldScore_nil]
  | succ n ih =>
    intro c hc
    have hpos : c.position < phrase.length := by omega
    have hget : phrase.getD c.position default = phrase[c.position] := by
      simp [List.getD_eq_getElem?_getD, List.getElem?_eq_getElem hpos]
    have hnt : (phrase[c.position]).isNonTerminal = false :=
      hterm _ (List.getElem_mem hpos)
    have hstep : calcStep lm phrase c
        = { fullScore := c.fullScore,
            scorer := c.scorer.Terminal lm.m_ngram (TranslateID lm phrase[c.position]),
            oovCount := if TranslateID lm phrase[c.position] = 0 then c.oovCount + 1
              else c.oovCount,
            position := c.position + 1 } := by
      unfold calcStep
      simp only [hget, hnt, Bool.false_eq_true, if_false]
    obtain ⟨h1, h2, h3, h4, h5⟩ := ih (calcStep lm phrase c) (by rw [hstep]; simp; omega)
    rw [calcLoop]
    rw [hstep] at h1 h2 h3 h4 h5 ⊢
    simp only [RuleScore.Terminal] at h1 h2 h3 h4 h5 ⊢
    rw [List.drop_eq_getElem_cons hpos, List.take_succ_cons, List.map_cons, foldScore_cons]
    refine ⟨h1, ?_, h3, ?_, ?_⟩
    · rw [h2]; simp [add_assoc]
    · rw [h4, List.count_cons]
      by_cases hz : TranslateID lm phrase[c.position] = 0
      · simp [hz]; omega
      · have hz' : ¬ (0 = TranslateID lm phrase[c.position]) := fun e => hz e.symm
        simp [hz, hz']
    · rw [h5]; omega

theorem CalcScore_raw (lm : LanguageModelKen) (phrase : List Word)
    (hne : phrase ≠ []) (hterm : ∀ w ∈ phrase, w.isNonTerminal = false)
    (hbos : (phrase.getD 0 default).factor ≠ lm.m_beginSentenceFactor) :
    (CalcScore lm phrase).fullScore = lm.TransformLMScore (phraseProbs lm phrase).sum
    ∧ (CalcScore lm phrase).ngramScore
        = lm.TransformLMScore ((phraseProbs lm phrase).sum
            - ((phraseProbs lm phrase).take (lm.m_ngram.Order - 1)).sum)
    ∧ (CalcScore lm phrase).oovCount = (phrase.map (TranslateID lm)).count 0 := by
  have hlen0 : phrase.length ≠ 0 := by
    intro h; exact hne (List.length_eq_zero.1 h)
  have hbos' : ¬ lm.m_beginSentenceFactor = (phrase.getD 0 default).factor :=
    fun e => hbos e.symm
  have hdef : CalcScore lm phrase
      = ⟨lm.TransformLMScore
          ((calcLoop lm phrase
              (phrase.length - (calcLoop lm phrase (min (lm.m_ngram.Order - 1) phrase.length - 0)
                ⟨0, RuleScore.Reset, 0, 0⟩).position)
              (calcLoop lm phrase (min (lm.m_ngram.Order - 1) phrase.length - 0)
                ⟨0, RuleScore.Reset, 0, 0⟩)).fullScore
            + (calcLoop lm phrase
              (phrase.length - (calcLoop lm phrase (min (lm.m_ngram.Order - 1) phrase.length - 0)
                ⟨0, RuleScore.Reset, 0, 0⟩).position)
              (calcLoop lm phrase (min (lm.m_ngram.Order - 1) phrase.length - 0)
                ⟨0, RuleScore.Reset, 0, 0⟩)).scorer.prob_),
         lm.TransformLMScore
          ((calcLoop lm phrase
              (phrase.length - (calcLoop lm phrase (min (lm.m_ngram.Order - 1) phrase.length - 0)
                ⟨0, RuleScore.Reset, 0, 0⟩).position)
              (calcLoop lm phrase (min (lm.m_ngram.Order - 1) phrase.length - 0)
                ⟨0, RuleScore.Reset, 0, 0⟩)).fullScore
            + (calcLoop lm phrase
              (phrase.length - (calcLoop lm phrase (min (lm.m_ngram.Order - 1) phrase.length - 0)
                ⟨0, RuleScore.Reset, 0, 0⟩).position)
              (calcLoop lm phrase (min (lm.m_ngram.Order - 1) phrase.length - 0)
                ⟨0, RuleScore.Reset, 0, 0⟩)).scorer.prob_
            - ((calcLoop lm phrase (min (lm.m_ngram.Order - 1) phrase.length - 0)
                ⟨0, RuleScore.Reset, 0, 0⟩).fullScore
              + (calcLoop lm phrase (min (lm.m_ngram.Order - 1) phrase.length - 0)
                ⟨0, RuleScore.Reset, 0, 0⟩).scorer.prob_)),
         (calcLoop lm phrase
              (phrase.length - (calcLoop lm phrase (min (lm.m_ngram.Order - 1) phrase.length - 0)
                ⟨0, RuleScore.Reset, 0, 0⟩).position)
              (calcLoop lm phrase (min (lm.m_ngram.Order - 1) phrase.length - 0)
                ⟨0, RuleScore.Reset, 0, 0⟩)).oovCount⟩ := by
    unfold CalcScore
    rw [if_neg hlen0, if_neg hbos']
    rfl
  obtain ⟨a1, a2, a3, a4, a5⟩ := calcLoop_terminals lm phrase hterm
    (min (lm.m_ngram.Order - 1) phrase.length - 0) ⟨0, RuleScore.Reset, 0, 0⟩
    (by simp)
  rw [hdef]
  generalize calcLoop lm phrase (min (lm.m_ngram.Order - 1) phrase.length - 0)
    ⟨0, RuleScore.Reset, 0, 0⟩ = c1 at a1 a2 a3 a4 a5 ⊢
  dsimp only at a1 a2 a3 a4 a5
  simp only [Nat.sub_zero, Nat.zero_add, List.drop_zero, zero_add] at a1 a2 a3 a4 a5
  obtain ⟨b1, b2, _, b4, _⟩ := calcLoop_terminals lm phrase hterm
    (phrase.length - c1.position) c1 (by rw [a5]; omega)
  generalize calcLoop lm phrase (phrase.length - c1.position) c1 = c2 at b1 b2 b4 ⊢
  rw [a1] at b1
  rw [a2, a3, a5] at b2
  rw [a4, a5] at b4
  dsimp only
  have htake : (phrase.take (min (lm.m_ngram.Order - 1) phrase.length)).map (TranslateID lm)
      = (phrase.map (TranslateID lm)).take (lm.m_ngram.Order - 1) := by
    rw [List.map_take]
    by_cases h : lm.m_ngram.Order - 1 ≤ phrase.length
    · rw [Nat.min_eq_left h]
    · rw [Nat.min_eq_right (by omega), List.take_of_length_le (by simp),
        List.take_of_length_le (by simp; omega)]
  have hdrop : ((phrase.drop (min (lm.m_ngram.Order - 1) phrase.length)).take
        (phrase.length - min (lm.m_ngram.Order - 1) phrase.length)).map (TranslateID lm)
      = (phrase.map (TranslateID lm)).drop (lm.m_ngram.Order - 1) := by
    rw [List.take_of_length_le (by simp), List.map_drop]
    by_cases h : lm.m_ngram.Order - 1 ≤ phrase.length
    · rw [Nat.min_eq_left h]
    · rw [Nat.min_eq_right (by omega), List.drop_of_length_le (by simp),
        List.drop_of_length_le (by simp; omega)]
  rw [htake] at a2 a3 a4 b2 b4
  rw [hdrop] at b2 b4
  have hsum : (phraseProbs lm phrase).sum
      = (foldScore lm.m_ngram RuleScore.Reset.right
            ((phrase.map (TranslateID lm)).take (lm.m_ngram.Order - 1))).1
        + (foldScore lm.m_ngram
            (foldScore lm.m_ngram RuleScore.Reset.right
              ((phrase.map (TranslateID lm)).take (lm.m_ngram.Order - 1))).2
            ((phrase.map (TranslateID lm)).drop (lm.m_ngram.Order - 1))).1 := by
    unfold phraseProbs
    rw [wordProbs_sum]
    conv_lhs => rw [← List.take_append_drop (lm.m_ngram.Order - 1) (phrase.map (TranslateID lm))]
    rw [foldScore_append]
  have hpre : ((phraseProbs lm phrase).take (lm.m_ngram.Order - 1)).sum
      = (foldScore lm.m_ngram RuleScore.Reset.right
            ((phrase.map (TranslateID lm)).take (lm.m_ngram.Order - 1))).1 := by
    unfold phraseProbs
    rw [wordProbs_take, wordProbs_sum]
  have hcount : (phrase.map (TranslateID lm)).count 0
      = ((phrase.map (TranslateID lm)).take (lm.m_ngram.Order - 1)).count 0
        + ((phrase.map (TranslateID lm)).drop (lm.m_ngram.Order - 1)).count 0 := by
    conv_lhs => rw [← List.take_append_drop (lm.m_ngram.Order - 1) (phrase.map (TranslateID lm))]
    rw [List.count_append]
  have hz : RuleScore.Reset.prob_ = 0 := rfl
  refine ⟨?_, ?_, ?_⟩
  · rw [b1, b2, hsum]
    congr 1
    rw [hz]
    ring
  · rw [b1, b2, a1, a2, hsum, hpre]
    congr 1
    rw [hz]
    ring
  · rw [b4, hcount]

/-- C10, as stated, fails on the empty phrase, which is a phrase of terminal words of at
most order - 1 words that does not start with the sentence-begin token: CalcScore
returns at once, with fullScore and ngramScore the plain 0 and no transform applied.
With the transform that adds 1, transform(0) and the transform of the empty sum are 1,
not 0. -/
theorem empty_phrase_is_not_transformed :
    (∀ w ∈ ([] : List Word), w.isNonTerminal = false)
    ∧ (([] : List Word).getD 0 default).factor ≠ shiftLM.m_beginSentenceFactor
    ∧ ([] : List Word).length ≤ shiftLM.m_ngram.Order - 1
    ∧ (CalcScore shiftLM []).fullScore = 0
    ∧ (CalcScore shiftLM []).ngramScore = 0
    ∧ shiftLM.TransformLMScore (phraseProbs shiftLM []).sum = 1
    ∧ shiftLM.TransformLMScore 0 = 1
    ∧ (CalcScore shiftLM []).fullScore
        ≠ shiftLM.TransformLMScore (phraseProbs shiftLM []).sum
    ∧ (CalcScore shiftLM []).ngramScore ≠ shiftLM.TransformLMScore 0 := by
  have h1 : (CalcScore shiftLM []).fullScore = 0 := by simp [CalcScore]
  have h2 : (CalcScore shiftLM []).ngramScore = 0 := by simp [CalcScore]
  have h3 : shiftLM.TransformLMScore (phraseProbs shiftLM []).sum = 1 := by
    simp [phraseProbs, wordProbs, shiftLM]
  have h4 : shiftLM.TransformLMScore 0 = 1 := by simp [shiftLM]
  refine ⟨by simp, by decide, by decide, h1, h2, h3, h4, ?_, ?_⟩
  · rw [h1, h3]; norm_num
  · rw [h2, h4]; norm_num

/-- C10, amended: for a non-empty phrase of terminal words that does not start with the
sentence-begin token, CalcScore returns fullScore = transform(sum of the per-word
log-probabilities of all positions) and ngramScore = transform(sum of the per-word
log-probabilities of the positions order - 1, ..., n - 1), which is transform(full sum
minus the sum of the first order - 1 positions); a non-empty phrase of at most
order - 1 words has ngramScore = transform(0); for the empty phrase CalcScore returns
fullScore = ngramScore = 0 and oovCount = 0, no transform being applied. -/
theorem CalcScore_terminals (lm : LanguageModelKen) (phrase : List Word)
    (hne : phrase ≠ []) (hterm : ∀ w ∈ phrase, w.isNonTerminal = false)
    (hbos : (phrase.getD 0 default).factor ≠ lm.m_beginSentenceFactor) :
    (CalcScore lm phrase).fullScore = lm.TransformLMScore (phraseProbs lm phrase).sum
    ∧ (CalcScore lm phrase).ngramScore
        = lm.TransformLMScore ((phraseProbs lm phrase).drop (lm.m_ngram.Order - 1)).sum
    ∧ (CalcScore lm phrase).ngramScore
        = lm.TransformLMScore ((phraseProbs lm phrase).sum
            - ((phraseProbs lm phrase).take (lm.m_ngram.Order - 1)).sum)
    ∧ (phraseProbs lm phrase).length = phrase.length
    ∧ (phrase.length ≤ lm.m_ngram.Order - 1 →
        (CalcScore lm phrase).ngramScore = lm.TransformLMScore 0)
    ∧ CalcScore lm [] = ⟨0, 0, 0⟩ := by
  obtain ⟨h1, h2, _⟩ := CalcScore_raw lm phrase hne hterm hbos
  have hsplit : (phraseProbs lm phrase).sum
      = ((phraseProbs lm phrase).take (lm.m_ngram.Order - 1)).sum
        + ((phraseProbs lm phrase).drop (lm.m_ngram.Order - 1)).sum := by
    conv_lhs => rw [← List.take_append_drop (lm.m_ngram.Order - 1) (phraseProbs lm phrase)]
    rw [List.sum_append]
  have hlen : (phraseProbs lm phrase).length = phrase.length := by
    unfold phraseProbs
    rw [wordProbs_length, List.length_map]
  have hdrop : (CalcScore lm phrase).ngramScore
      = lm.TransformLMScore ((phraseProbs lm phrase).drop (lm.m_ngram.Order - 1)).sum := by
    rw [h2]
    congr 1
    rw [hsplit]
    ring
  refine ⟨h1, hdrop, h2, hlen, fun hshort => ?_, by simp [CalcScore]⟩
  rw [hdrop, List.drop_of_length_le (by rw [hlen]; exact hshort)]
  rfl

theorem CalcScore_terminals_witness :
    exPhrase ≠ [] ∧ (∀ w ∈ exPhrase, w.isNonTerminal = false)
    ∧ (exPhrase.getD 0 default).factor ≠ histLM.m_beginSentenceFactor
    ∧ phraseProbs histLM exPhrase = [-3, -34, -75, -96, -117, -138, -159]
    ∧ (CalcScore histLM exPhrase).fullScore = -3 + -34 + -75 + -96 + -117 + -138 + -159
    ∧ (CalcScore histLM exPhrase).ngramScore = -75 + -96 + -117 + -138 + -159 := by
  have hne : exPhrase ≠ [] := by decide
  have hterm : ∀ w ∈ exPhrase, w.isNonTerminal = false := by decide
  have hbos : (exPhrase.getD 0 default).factor ≠ histLM.m_beginSentenceFactor := by decide
  have hp : phraseProbs histLM exPhrase = [-3, -34, -75, -96, -117, -138, -159] := by
    simp [phraseProbs, wordProbs, exPhrase, exWord, histLM, histModel, histState, histProb,
      TranslateID, RuleScore.Reset]
    norm_num
  obtain ⟨h1, h2, _⟩ := CalcScore_terminals histLM exPhrase hne hterm hbos
  refine ⟨hne, hterm, hbos, hp, ?_, ?_⟩
  · rw [h1, hp]
    simp [histLM]
    norm_num
  · rw [h2, hp]
    simp [histLM, histModel]
    norm_num

theorem LastIDsLoop_range (lm : LanguageModelKen) (hypo : Hypothesis) : ∀ (room k : Nat),
    LastIDsLoop lm hypo room ((k : Int) - 1)
      = (((List.range k).reverse.map fun i => TranslateID lm (hypo.GetWord i))
          ++ [lm.m_ngram.BeginSentence]).take room := by
  intro room
  induction room with
  | zero => intro k; simp [LastIDsLoop]
  | succ room ih =>
    intro k
    cases k with
    | zero => simp [LastIDsLoop]
    | succ j =>
      have hpos : ((j + 1 : Nat) : Int) - 1 ≠ -1 := by omega
      have hnat : (((j + 1 : Nat) : Int) - 1).toNat = j := by omega
      have hprev : ((j + 1 : Nat) : Int) - 1 - 1 = (j : Int) - 1 := by omega
      rw [LastIDsLoop, if_neg hpos, hnat, hprev, ih j, List.range_succ]
      simp only [List.reverse_append, List.reverse_cons, List.reverse_nil, List.nil_append,
        List.cons_append, List.map_cons, List.take_succ_cons]

theorem LastIDs_eq_rawTrail (lm : LanguageModelKen) (hypo : Hypothesis) :
    LastIDs lm hypo = (rawTrail lm hypo).take (lm.m_ngram.Order - 1) := by
  have h := LastIDsLoop_range lm hypo (lm.m_ngram.Order - 1) (hypo.GetEndPos + 1)
  have e : (((hypo.GetEndPos + 1 : Nat) : Int) - 1) = (hypo.GetEndPos : Int) := by omega
  rw [e] at h
  exact h

theorem rawTrail_length (lm : LanguageModelKen) (hypo : Hypothesis) :
    (rawTrail lm hypo).length = hypo.GetEndPos + 2 := by
  simp [rawTrail]

theorem rawTrail_getElem? (lm : LanguageModelKen) (hypo : Hypothesis) (i : Nat)
    (hi : i < hypo.GetEndPos + 2) :
    (rawTrail lm hypo)[i]?
      = some (if i ≤ hypo.GetEndPos then TranslateID lm (hypo.GetWord (hypo.GetEndPos - i))
              else lm.m_ngram.BeginSentence) := by
  unfold rawTrail
  by_cases h : i ≤ hypo.GetEndPos
  · rw [if_pos h, List.getElem?_append_left (by simp; omega)]
    rw [List.getElem?_map, List.getElem?_reverse (by simp; omega)]
    simp only [List.length_range]
    rw [List.getElem?_range (by omega)]
    simp
  · have hi' : i = hypo.GetEndPos + 1 := by omega
    rw [if_neg h, List.getElem?_append_right (by simp; omega)]
    simp [hi']

/-- C18: for every model and every hypothesis whose span ends at a position e that
the `int` of the source holds (e < 2^31, where the conversion of the end position to
`int` is the identity), LastIDs writes the first min(order - 1, e + 2) elements of the
list [id(word e), id(word e-1), ..., id(word 0), sentence-begin index], and never more
than order - 1 indices: entry i is the index of the word at position e - i for i ≤ e,
and the sentence-begin index for i = e + 1, which can only be the last entry. -/
theorem LastIDs_spec (lm : LanguageModelKen) (hypo : Hypothesis)
    (he : hypo.GetEndPos < 2 ^ 31) :
    intOfSizeT hypo.GetEndPos = (hypo.GetEndPos : Int)
    ∧ LastIDs lm hypo
        = LastIDsLoop lm hypo (lm.m_ngram.Order - 1) (intOfSizeT hypo.GetEndPos)
    ∧ LastIDs lm hypo = (rawTrail lm hypo).take (lm.m_ngram.Order - 1)
    ∧ (LastIDs lm hypo).length = min (lm.m_ngram.Order - 1) (hypo.GetEndPos + 2)
    ∧ (LastIDs lm hypo).length ≤ lm.m_ngram.Order - 1
    ∧ (∀ i, i < (LastIDs lm hypo).length →
        (LastIDs lm hypo)[i]?
          = some (if i ≤ hypo.GetEndPos then
                    TranslateID lm (hypo.GetWord (hypo.GetEndPos - i))
                  else lm.m_ngram.BeginSentence))
    ∧ (∀ i, i < (LastIDs lm hypo).length → hypo.GetEndPos < i →
        i = hypo.GetEndPos + 1 ∧ i + 1 = (LastIDs lm hypo).length) := by
  have h := LastIDs_eq_rawTrail lm hypo
  have hlen : (LastIDs lm hypo).length = min (lm.m_ngram.Order - 1) (hypo.GetEndPos + 2) := by
    rw [h, List.length_take, rawTrail_length]
  have hint : intOfSizeT hypo.GetEndPos = (hypo.GetEndPos : Int) := by
    have h32 : hypo.GetEndPos % 2 ^ 32 = hypo.GetEndPos :=
      Nat.mod_eq_of_lt (lt_trans he (by norm_num))
    unfold intOfSizeT
    rw [h32, if_pos he]
  refine ⟨hint, by rw [hint]; rfl, h, hlen, by rw [hlen]; exact Nat.min_le_left _ _, ?_, ?_⟩
  · intro i hi
    rw [hlen] at hi
    rw [h, List.getElem?_take_of_lt (by omega)]
    exact rawTrail_getElem? lm hypo i (by omega)
  · intro i hi hgt
    rw [hlen] at hi ⊢
    omega

theorem LastIDs_spec_witness :
    exHypoAB.GetEndPos < 2 ^ 31
    ∧ LastIDs histLM exHypoAB = [4, 3]
    ∧ LastIDs exLM exHypoA = [3, 1]
    ∧ (LastIDs exLM exHypoA).length = min (exLM.m_ngram.Order - 1) (exHypoA.GetEndPos + 2) := by
  have he : exHypoAB.GetEndPos < 2 ^ 31 := by decide
  have he' : exHypoA.GetEndPos < 2 ^ 31 := by decide
  refine ⟨he, ?_, ?_, (LastIDs_spec exLM exHypoA he').2.2.2.1⟩
  · rw [(LastIDs_spec histLM exHypoAB he).2.2.1]
    decide
  · rw [(LastIDs_spec exLM exHypoA he').2.2.1]
    decide

theorem memcmp_antisymm (a : List Nat) : ∀ (b : List Nat) (n : Nat),
    memcmp a b n = -memcmp b a n := by
  induction a with
  | nil => intro b n; cases b <;> cases n <;> simp [memcmp]
  | cons x xs ih =>
    intro b n
    cases b with
    | nil => cases n <;> simp [memcmp]
    | cons y ys =>
      cases n with
      | zero => simp [memcmp]
      | succ n =>
        by_cases hxy : x = y
        · subst hxy
          simp [memcmp, ih ys n]
        · have hyx : ¬ y = x := fun e => hxy e.symm
          simp [memcmp, hxy, hyx]

theorem memcmp_trans (a : List Nat) : ∀ (b c : List Nat) (n : Nat),
    n ≤ a.length → n ≤ b.length → n ≤ c.length →
    memcmp a b n ≤ 0 → memcmp b c n ≤ 0 → memcmp a c n ≤ 0 := by
  induction a with
  | nil =>
    intro b c n ha _ _ _ _
    have hn : n = 0 := by simpa using ha
    subst hn
    simp [memcmp]
  | cons x xs ih =>
    intro b c n ha hb hc hab hbc
    cases n with
    | zero => simp [memcmp]
    | succ n =>
      cases b with
      | nil => simp at hb
      | cons y ys =>
        cases c with
        | nil => simp at hc
        | cons z zs =>
          simp only [List.length_cons, Nat.add_le_add_iff_right] at ha hb hc
          by_cases hxy : x = y
          · subst hxy
            by_cases hxz : x = z
            · subst hxz
              simp only [memcmp, if_true] at hab hbc ⊢
              exact ih ys zs n ha hb hc hab hbc
            · simp only [memcmp, if_true, if_neg hxz] at hab hbc ⊢
              exact hbc
          · by_cases hyz : y = z
            · subst hyz
              simp only [memcmp, if_neg hxy] at hab ⊢
              exact hab
            · simp only [memcmp, if_neg hxy, if_neg hyz] at hab hbc
              by_cases hxz : x = z
              · omega
              · simp only [memcmp, if_neg hxz]
                omega

theorem Compare_antisymm (A B : State) :
    KenLMState.Compare A B = -KenLMState.Compare B A := by
  unfold KenLMState.Compare
  by_cases h1 : A.length < B.length
  · have h2 : ¬ B.length < A.length := by omega
    simp [h1, h2]
  · by_cases h2 : B.length < A.length
    · simp [h1, h2]
    · have hl : A.length = B.length := by omega
      simp only [h1, h2, gt_iff_lt, if_false, hl, lt_irrefl]
      exact memcmp_antisymm _ _ _

/-- C19: Compare is a total order on well-formed context states, taken up to the
equality of length and of the first `length` indices: Compare(A, B) = 0 exactly when A
and B have the same length and the same first `length` indices, so two states that
compare ≤ 0 in both directions are equal in that sense and no others are; the sign of
Compare(A, B) is the opposite of the sign of Compare(B, A), any two states are
comparable, and Compare(A, B) ≤ 0 together with Compare(B, C) ≤ 0 implies
Compare(A, C) ≤ 0. -/
theorem Compare_total_order (A B C : State) (hA : A.WF) (hB : B.WF) (hC : C.WF) :
    (KenLMState.Compare A B).sign = -(KenLMState.Compare B A).sign
    ∧ (KenLMState.Compare A B ≤ 0 ∨ KenLMState.Compare B A ≤ 0)
    ∧ (KenLMState.Compare A B ≤ 0 → KenLMState.Compare B A ≤ 0 →
        KenLMState.Compare A B = 0)
    ∧ (KenLMState.Compare A B = 0
        ↔ A.length = B.length ∧ A.words.take A.length = B.words.take B.length)
    ∧ (KenLMState.Compare A B ≤ 0 ∧ KenLMState.Compare B A ≤ 0
        ↔ A.length = B.length ∧ A.words.take A.length = B.words.take B.length)
    ∧ (A.length < B.length → KenLMState.Compare A B < 0)
    ∧ (KenLMState.Compare A B ≤ 0 → KenLMState.Compare B C ≤ 0 →
        KenLMState.Compare A C ≤ 0) := by
  have hanti := Compare_antisymm A B
  have hzero : KenLMState.Compare A B = 0
      ↔ A.length = B.length ∧ A.words.take A.length = B.words.take B.length := by
    rw [Compare_eq_zero_iff_take A B hA hB]
    constructor
    · rintro ⟨hl, ht⟩
      exact ⟨hl, by rw [ht, hl]⟩
    · rintro ⟨hl, ht⟩
      exact ⟨hl, by rw [ht, hl]⟩
  have hboth : (KenLMState.Compare A B ≤ 0 ∧ KenLMState.Compare B A ≤ 0)
      ↔ A.length = B.length ∧ A.words.take A.length = B.words.take B.length := by
    rw [← hzero]
    constructor
    · rintro ⟨h1, h2⟩; omega
    · intro h; omega
  have hshort : A.length < B.length → KenLMState.Compare A B < 0 := by
    intro h
    simp [KenLMState.Compare, h]
  refine ⟨by rw [hanti, Int.sign_neg], by omega, by omega, hzero, hboth, hshort, ?_⟩
  intro hab hbc
  unfold KenLMState.Compare at hab hbc ⊢
  by_cases h1 : A.length < B.length
  · by_cases h2 : B.length < C.length
    · have h3 : A.length < C.length := by omega
      simp [h3]
    · by_cases h2' : B.length > C.length
      · simp [h2, h2'] at hbc
      · have h3 : A.length < C.length := by omega
        simp [h3]
  · by_cases h1' : A.length > B.length
    · simp [h1, h1'] at hab
    · have hl : A.length = B.length := by omega
      by_cases h2 : B.length < C.length
      · have h3 : A.length < C.length := by omega
        simp [h3]
      · by_cases h2' : B.length > C.length
        · simp [h2, h2'] at hbc
        · have hl2 : B.length = C.length := by omega
          have h3 : ¬ A.length < C.length := by omega
          have h3' : ¬ A.length > C.length := by omega
          rw [if_neg h1, if_neg h1'] at hab
          rw [if_neg h2, if_neg h2'] at hbc
          rw [if_neg h3, if_neg h3']
          rw [← hl] at hbc
          have hn : sizeofWordIndex * A.length = 4 * A.length := rfl
          rw [hn] at hab hbc ⊢
          have la := hA.1
          have lb := hB.1
          have lc := hC.1
          exact memcmp_trans _ _ _ _ (by rw [bufferBytes_length]; omega)
            (by rw [bufferBytes_length]; omega) (by rw [bufferBytes_length]; omega) hab hbc

theorem Compare_total_order_witness :
    State.WF ⟨[4, 3], 1⟩ ∧ State.WF ⟨[256, 9], 2⟩ ∧ State.WF ⟨[255, 9], 2⟩
    ∧ KenLMState.Compare ⟨[4, 3], 1⟩ ⟨[256, 9], 2⟩ ≤ 0
    ∧ KenLMState.Compare ⟨[256, 9], 2⟩ ⟨[255, 9], 2⟩ ≤ 0
    ∧ KenLMState.Compare ⟨[4, 3], 1⟩ ⟨[255, 9], 2⟩ ≤ 0 := by
  have hA : State.WF ⟨[4, 3], 1⟩ := by decide
  have hB : State.WF ⟨[256, 9], 2⟩ := by decide
  have hC : State.WF ⟨[255, 9], 2⟩ := by decide
  have hab : KenLMState.Compare ⟨[4, 3], 1⟩ ⟨[256, 9], 2⟩ ≤ 0 := by decide
  have hbc : KenLMState.Compare ⟨[256, 9], 2⟩ ⟨[255, 9], 2⟩ ≤ 0 := by decide
  exact ⟨hA, hB, hC, hab, hbc,
    (Compare_total_order ⟨[4, 3], 1⟩ ⟨[256, 9], 2⟩ ⟨[255, 9], 2⟩ hA hB hC).2.2.2.2.2.2
      hab hbc⟩

/-- C20, as stated, fails on a source-complete hypothesis whose appended span is empty:
Evaluate returns the previous state itself, so two different previous states give two
different returned states. -/
theorem complete_empty_span_keeps_previous_state :
    exHypoEmpty.IsSourceCompleted = true
    ∧ (Evaluate exLM exHypoEmpty ⟨[4, 3], 2⟩ [0]).1 = ⟨[4, 3], 2⟩
    ∧ (Evaluate exLM exHypoEmpty ⟨[5, 4], 2⟩ [0]).1 = ⟨[5, 4], 2⟩
    ∧ (Evaluate exLM exHypoEmpty ⟨[4, 3], 2⟩ [0]).1
        ≠ (Evaluate exLM exHypoEmpty ⟨[5, 4], 2⟩ [0]).1 := by
  have h1 : (Evaluate exLM exHypoEmpty ⟨[4, 3], 2⟩ [0]).1 = ⟨[4, 3], 2⟩ := by
    simp [Evaluate, exHypoEmpty]
  have h2 : (Evaluate exLM exHypoEmpty ⟨[5, 4], 2⟩ [0]).1 = ⟨[5, 4], 2⟩ := by
    simp [Evaluate, exHypoEmpty]
  refine ⟨rfl, h1, h2, ?_⟩
  rw [h1, h2]
  decide

/-- C20, amended: when the appended span is not empty and the hypothesis is
source-complete, or its span is longer than order - 1 words, the state Evaluate returns
does not depend on the previous state: for every two previous states P and Q the
returned states are equal, namely the state of FullScoreForgotState (source-complete)
or of GetState (long span) on the trailing words that LastIDs reads from the
hypothesis. -/
theorem Evaluate_state_independent (lm : LanguageModelKen) (hypo : Hypothesis) (P Q : State)
    (out out' : ScoreComponentCollection) (hne : hypo.GetCurrTargetLength ≠ 0)
    (hkind : hypo.IsSourceCompleted = true
      ∨ lm.m_ngram.Order - 1 < hypo.GetEndPos + 1 - hypo.GetStartPos) :
    (Evaluate lm hypo P out).1 = (Evaluate lm hypo Q out').1
    ∧ (Evaluate lm hypo P out).1
        = if hypo.IsSourceCompleted = true then
            (lm.m_ngram.FullScoreForgotState (LastIDs lm hypo) lm.m_ngram.EndSentence).2
          else lm.m_ngram.GetState (LastIDs lm hypo) := by
  have hO := lm.m_ngram.Order_pos
  have key : ∀ (S : State) (o : ScoreComponentCollection), (Evaluate lm hypo S o).1
      = if hypo.IsSourceCompleted = true then
          (lm.m_ngram.FullScoreForgotState (LastIDs lm hypo) lm.m_ngram.EndSentence).2
        else lm.m_ngram.GetState (LastIDs lm hypo) := by
    intro S o
    by_cases hc : hypo.IsSourceCompleted = true
    · simp [Evaluate, hne, hc]
    · have hlong : adjustEnd lm hypo < hypo.GetEndPos + 1 := by
        unfold adjustEnd
        rcases hkind with h | h
        · exact absurd h hc
        · omega
      simp [Evaluate, hne, hc, hlong]
  exact ⟨by rw [key P out, key Q out'], key P out⟩

theorem Evaluate_state_independent_witness :
    exHypoABC.GetCurrTargetLength ≠ 0
    ∧ exLM.m_ngram.Order - 1 < exHypoABC.GetEndPos + 1 - exHypoABC.GetStartPos
    ∧ (Evaluate exLM exHypoABC ⟨[1, 0], 1⟩ [0]).1 = (Evaluate exLM exHypoABC ⟨[4, 3], 2⟩ [0]).1 :=
  ⟨by decide, by decide,
    (Evaluate_state_independent exLM exHypoABC ⟨[1, 0], 1⟩ ⟨[4, 3], 2⟩ [0] [0] (by decide)
      (Or.inr (by decide))).1⟩

theorem resize_length (v : List WordIndex) (n : Nat) (h : v.length ≤ n) :
    (resize v n).length = n := by
  simp [resize]
  omega

theorem resize_getD (v : List WordIndex) (n j : Nat) (h : v.length ≤ n) :
    (resize v n).getD j 0 = v.getD j 0 := by
  unfold resize
  rw [List.take_of_length_le h, List.getD_eq_getElem?_getD, List.getD_eq_getElem?_getD]
  by_cases hj : j < v.length
  · rw [List.getElem?_append_left hj]
  · rw [List.getElem?_append_right (by omega), List.getElem?_eq_none (by omega : v.length ≤ j),
      List.getElem?_replicate]
    split <;> rfl

theorem Add_length (m : List WordIndex) (i : WordIndex) (f : Nat) :
    (MappingBuilder.Add m i f).length = max m.length (f + 1) := by
  unfold MappingBuilder.Add
  by_cases h : m.length ≤ f
  · simp only [h, if_true, List.length_set]
    rw [resize_length m (f + 1) (by omega)]
    omega
  · simp only [h, if_false, List.length_set]
    omega

theorem Add_getD_self (m : List WordIndex) (i : WordIndex) (f : Nat) :
    (MappingBuilder.Add m i f).getD f 0 = i := by
  unfold MappingBuilder.Add
  by_cases h : m.length ≤ f
  · simp only [h, if_true]
    rw [List.getD_eq_getElem?_getD, List.getElem?_set_self
      (by rw [resize_length m (f + 1) (by omega)]; omega)]
    rfl
  · simp only [h, if_false]
    rw [List.getD_eq_getElem?_getD, List.getElem?_set_self (by omega)]
    rfl

theorem Add_getD_other (m : List WordIndex) (i : WordIndex) (f j : Nat) (hj : j ≠ f) :
    (MappingBuilder.Add m i f).getD j 0 = m.getD j 0 := by
  unfold MappingBuilder.Add
  by_cases h : m.length ≤ f
  · simp only [h, if_true]
    rw [List.getD_eq_getElem?_getD, List.getElem?_set_ne (fun e => hj e.symm),
      ← List.getD_eq_getElem?_getD, resize_getD m (f + 1) j (by omega)]
  · simp only [h, if_false]
    rw [List.getD_eq_getElem?_getD, List.getElem?_set_ne (fun e => hj e.symm),
      ← List.getD_eq_getElem?_getD]

theorem enumerateFrom_cons (m : List WordIndex) (c : WordIndex × Nat)
    (cs : List (WordIndex × Nat)) :
    enumerateFrom m (c :: cs) = enumerateFrom (MappingBuilder.Add m c.1 c.2) cs := rfl

theorem enumerateFrom_append (cs ds : List (WordIndex × Nat)) : ∀ m : List WordIndex,
    enumerateFrom m (cs ++ ds) = enumerateFrom (enumerateFrom m cs) ds := by
  intro m
  simp [enumerateFrom, List.foldl_append]

theorem enumerateFrom_getD_absent (cs : List (WordIndex × Nat)) (f : Nat) :
    ∀ m : List WordIndex, (∀ c ∈ cs, c.2 ≠ f) →
    (enumerateFrom m cs).getD f 0 = m.getD f 0 := by
  induction cs with
  | nil => intro m _; rfl
  | cons c cs ih =>
    intro m h
    rw [enumerateFrom_cons, ih _ (fun d hd => h d (by simp [hd]))]
    exact Add_getD_other m c.1 c.2 f (fun e => h c (by simp) e.symm)

theorem enumerateFrom_length_ge (cs : List (WordIndex × Nat)) : ∀ m : List WordIndex,
    m.length ≤ (enumerateFrom m cs).length ∧ ∀ c ∈ cs, c.2 < (enumerateFrom m cs).length := by
  induction cs with
  | nil => intro m; simp [enumerateFrom]
  | cons c cs ih =>
    intro m
    rw [enumerateFrom_cons]
    obtain ⟨h1, h2⟩ := ih (MappingBuilder.Add m c.1 c.2)
    rw [Add_length] at h1
    refine ⟨by omega, ?_⟩
    intro d hd
    rcases List.mem_cons.1 hd with rfl | hd'
    · omega
    · exact h2 d hd'

theorem enumerateFrom_length_attained (cs : List (WordIndex × Nat)) : ∀ m : List WordIndex,
    (enumerateFrom m cs).length = m.length
      ∨ ∃ c ∈ cs, (enumerateFrom m cs).length = c.2 + 1 := by
  induction cs with
  | nil => intro m; left; rfl
  | cons c cs ih =>
    intro m
    rw [enumerateFrom_cons]
    rcases ih (MappingBuilder.Add m c.1 c.2) with h | ⟨d, hd, h⟩
    · rw [Add_length] at h
      by_cases hm : c.2 + 1 ≤ m.length
      · left; omega
      · right; exact ⟨c, by simp, by omega⟩
    · right; exact ⟨d, by simp [hd], h⟩

/-- C12: starting from an empty mapping, after any sequence of Add calls the size of the
mapping is the largest identifier seen plus one (zero when there was no call), the
entry of an identifier holds the oracle index of the last call that presented it, and
the entry of an identifier that was never presented is 0; a single Add sets the entry
of its own identifier, changes no other entry and never shrinks the mapping. -/
theorem MappingBuilder_spec (calls : List (WordIndex × Nat)) :
    (∀ c ∈ calls, c.2 + 1 ≤ (enumerateVocab calls).length)
    ∧ (calls ≠ [] → ∃ c ∈ calls, (enumerateVocab calls).length = c.2 + 1)
    ∧ (calls = [] → (enumerateVocab calls).length = 0)
    ∧ (∀ (pre post : List (WordIndex × Nat)) (i : WordIndex) (f : Nat),
        calls = pre ++ (i, f) :: post → (∀ c ∈ post, c.2 ≠ f) →
        (enumerateVocab calls).getD f 0 = i)
    ∧ (∀ f, (∀ c ∈ calls, c.2 ≠ f) → (enumerateVocab calls).getD f 0 = 0)
    ∧ (∀ (m : List WordIndex) (i : WordIndex) (f : Nat),
        (MappingBuilder.Add m i f).getD f 0 = i
        ∧ (∀ j, j ≠ f → (MappingBuilder.Add m i f).getD j 0 = m.getD j 0)
        ∧ m.length ≤ (MappingBuilder.Add m i f).length
        ∧ (MappingBuilder.Add m i f).length = max m.length (f + 1)) := by
  refine ⟨?_, ?_, ?_, ?_, ?_, ?_⟩
  · intro c hc
    exact (enumerateFrom_length_ge calls []).2 c hc
  · intro hne
    rcases enumerateFrom_length_attained calls [] with h | h
    · cases calls with
      | nil => exact absurd rfl hne
      | cons c cs =>
        have := (enumerateFrom_length_ge (c :: cs) []).2 c (by simp)
        have h' : (enumerateFrom [] (c :: cs)).length = 0 := h
        omega
    · exact h
  · intro h; rw [h]; rfl
  · intro pre post i f hcalls hpost
    rw [hcalls]
    unfold enumerateVocab
    rw [enumerateFrom_append, enumerateFrom_cons, enumerateFrom_getD_absent post f _ hpost]
    exact Add_getD_self _ i f
  · intro f habs
    exact enumerateFrom_getD_absent calls f [] habs
  · intro m i f
    refine ⟨Add_getD_self m i f, fun j hj => Add_getD_other m i f j hj, ?_, Add_length m i f⟩
    rw [Add_length]
    omega

theorem enumerateFrom_nonzero (cs : List (WordIndex × Nat)) (f : Nat) :
    ∀ m : List WordIndex, (∀ c ∈ cs, c.2 = f → c.1 ≠ 0) →
    (m.getD f 0 ≠ 0 ∨ ∃ c ∈ cs, c.2 = f) →
    (enumerateFrom m cs).getD f 0 ≠ 0 := by
  induction cs with
  | nil =>
    intro m _ h
    rcases h with h | ⟨c, hc, _⟩
    · exact h
    · simp at hc
  | cons c cs ih =>
    intro m hnz h
    rw [enumerateFrom_cons]
    apply ih _ (fun d hd => hnz d (by simp [hd]))
    by_cases hcf : c.2 = f
    · left
      rw [← hcf, Add_getD_self]
      exact hnz c (by simp) hcf
    · rcases h with h | ⟨d, hd, hdf⟩
      · left
        rw [Add_getD_other m c.1 c.2 f (fun e => hcf e.symm)]
        exact h
      · rcases List.mem_cons.1 hd with rfl | hd'
        · exact absurd hdf hcf
        · right; exact ⟨d, hd', hdf⟩

/-- C13, as stated, fails when the oracle presents a token with index 0, as it does for
the unknown word: after the enumeration (0, id 0), (1, id 1), (2, id 2) the entry of
identifier 0, which was presented, is 0. -/
theorem presented_unknown_word_maps_to_zero :
    ((0 : WordIndex), 0) ∈ [((0 : WordIndex), 0), (1, 1), (2, 2)]
    ∧ (enumerateVocab [(0, 0), (1, 1), (2, 2)]).getD 0 0 = 0 := by
  decide

/-- C13, amended: after load-time enumeration, every token that the oracle presented,
and presented only with non-zero indices, maps to a non-zero oracle index. -/
theorem enumerateVocab_nonzero (calls : List (WordIndex × Nat)) (i : WordIndex) (f : Nat)
    (hmem : (i, f) ∈ calls) (hnz : ∀ c ∈ calls, c.2 = f → c.1 ≠ 0) :
    (enumerateVocab calls).getD f 0 ≠ 0 :=
  enumerateFrom_nonzero calls f [] hnz (Or.inr ⟨(i, f), hmem, rfl⟩)

theorem enumerateVocab_nonzero_witness :
    ((2 : WordIndex), 2) ∈ [((0 : WordIndex), 0), (1, 1), (2, 2)]
    ∧ (∀ c ∈ [((0 : WordIndex), 0), (1, 1), (2, 2)], c.2 = 2 → c.1 ≠ 0)
    ∧ (enumerateVocab [(0, 0), (1, 1), (2, 2)]).getD 2 0 ≠ 0 := by
  have hmem : ((2 : WordIndex), 2) ∈ [((0 : WordIndex), 0), (1, 1), (2, 2)] := by decide
  have hnz : ∀ c ∈ [((0 : WordIndex), 0), (1, 1), (2, 2)], c.2 = 2 → c.1 ≠ 0 := by decide
  exact ⟨hmem, hnz, enumerateVocab_nonzero _ 2 2 hmem hnz⟩

/-- C14: ConstructKenLM is a closed dispatch on the signature probe.  When the probe
recognizes one of the six type tags the adapter is built over the matching backend, and
when it recognizes no binary signature over the plain (probing) backend; the adapter is
returned exactly when that constructor raises no exception.  The process aborts if and
only if the probe raises an exception, or the recognized tag is none of the six, or the
constructor of the selected backend raises an exception. -/
theorem ConstructKenLM_dispatch (recognize : Option (Option ModelType))
    (loads : Backend → Bool) :
    (∀ (t : ModelType) (b : Backend), recognize = some (some t) → matchingBackend t = some b →
        loads b = true → ConstructKenLM recognize loads = Constructed.adapter b)
    ∧ (recognize = some none → loads Backend.ProbingModel = true →
        ConstructKenLM recognize loads = Constructed.adapter Backend.ProbingModel)
    ∧ (∀ b, ConstructKenLM recognize loads = Constructed.adapter b →
        ∃ r, recognize = some r ∧ selectedBackend r = some b ∧ loads b = true)
    ∧ (ConstructKenLM recognize loads = Constructed.aborted
        ↔ recognize = none
          ∨ (∃ t, recognize = some (some t) ∧ matchingBackend t = none)
          ∨ (∃ r b, recognize = some r ∧ selectedBackend r = some b ∧ loads b = false)) := by
  refine ⟨?_, ?_, ?_, ?_⟩
  · intro t b hr hm hl
    subst hr
    cases t <;> simp [matchingBackend] at hm <;> subst hm <;>
      simp [ConstructKenLM, newLanguageModelKen, hl]
  · intro hr hl
    subst hr
    simp [ConstructKenLM, newLanguageModelKen, hl]
  · intro b h
    rcases recognize with _ | _ | t
    · simp [ConstructKenLM] at h
    · refine ⟨none, rfl, ?_⟩
      cases hl : loads Backend.ProbingModel <;>
        simp [ConstructKenLM, newLanguageModelKen, hl] at h
      subst h
      exact ⟨rfl, hl⟩
    · refine ⟨some t, rfl, ?_⟩
      cases t <;> simp only [ConstructKenLM, newLanguageModelKen] at h
      case other => simp at h
      all_goals
        split at h
        · rename_i hl
          injection h with h
          subst h
          exact ⟨rfl, hl⟩
        · simp at h
  · rcases recognize with _ | _ | t
    · simp [ConstructKenLM]
    · cases hl : loads Backend.ProbingModel <;>
        simp [ConstructKenLM, newLanguageModelKen, selectedBackend, hl]
    · cases t <;>
        simp only [ConstructKenLM, newLanguageModelKen, selectedBackend, matchingBackend]
      case other => simp
      all_goals
        split
        · rename_i hl
          simp [hl]
        · rename_i hl
          simp [hl]

theorem calcLoop_general (lm : LanguageModelKen) (phrase : List Word) :
    ∀ (n : Nat) (c : CalcState), c.position + n ≤ phrase.length →
    (calcLoop lm phrase n c).fullScore + (calcLoop lm phrase n c).scorer.prob_
        = c.fullScore + c.scorer.prob_
          + (runningFold lm c.scorer.right ((phrase.drop c.position).take n)).1
    ∧ (calcLoop lm phrase n c).scorer.right
        = (runningFold lm c.scorer.right ((phrase.drop c.position).take n)).2
    ∧ (calcLoop lm phrase n c).oovCount
        = c.oovCount + oovTokens lm ((phrase.drop c.position).take n)
    ∧ (calcLoop lm phrase n c).position = c.position + n := by
  intro n
  induction n with
  | zero => intro c _; simp [calcLoop, runningFold, oovTokens]
  | succ n ih =>
    intro c hc
    have hpos : c.position < phrase.length := by omega
    have hget : phrase.getD c.position default = phrase[c.position] := by
      simp [List.getD_eq_getElem?_getD, List.getElem?_eq_getElem hpos]
    rw [calcLoop, List.drop_eq_getElem_cons hpos, List.take_succ_cons]
    by_cases hnt : (phrase[c.position]).isNonTerminal = true
    · have hstep : calcStep lm phrase c
          = { fullScore := c.fullScore + c.scorer.Finish, scorer := RuleScore.Reset,
              oovCount := c.oovCount, position := c.position + 1 } := by
        unfold calcStep
        simp only [hget, hnt, if_true]
      obtain ⟨h1, h2, h3, h4⟩ := ih (calcStep lm phrase c) (by rw [hstep]; simp; omega)
      rw [hstep] at h1 h2 h3 h4 ⊢
      simp only [RuleScore.Finish] at h1 h2 h3 h4 ⊢
      have hz : RuleScore.Reset.prob_ = 0 := rfl
      refine ⟨?_, ?_, ?_, ?_⟩
      · rw [h1, runningFold, if_pos hnt, hz]; ring
      · rw [h2, runningFold, if_pos hnt]
      · rw [h3, oovTokens, oovTokens, List.countP_cons]
        simp [hnt]
      · rw [h4]; omega
    · have hnt' : (phrase[c.position]).isNonTerminal = false := by
        simpa using hnt
      have hstep : calcStep lm phrase c
          = { fullScore := c.fullScore,
              scorer := c.scorer.Terminal lm.m_ngram (TranslateID lm phrase[c.position]),
              oovCount := if TranslateID lm phrase[c.position] = 0 then c.oovCount + 1
                else c.oovCount,
              position := c.position + 1 } := by
        unfold calcStep
        simp only [hget, hnt', Bool.false_eq_true, if_false]
      obtain ⟨h1, h2, h3, h4⟩ := ih (calcStep lm phrase c) (by rw [hstep]; simp; omega)
      rw [hstep] at h1 h2 h3 h4 ⊢
      simp only [RuleScore.Terminal] at h1 h2 h3 h4 ⊢
      refine ⟨?_, ?_, ?_, ?_⟩
      · rw [h1, runningFold, if_neg hnt]; ring
      · rw [h2, runningFold, if_neg hnt]
      · rw [h3, oovTokens, oovTokens, List.countP_cons]
        by_cases hz : TranslateID lm phrase[c.position] = 0
        · simp [hz, hnt']; omega
        · simp [hz, hnt']
      · rw [h4]; omega

theorem runningFold_append (lm : LanguageModelKen) (xs ys : List Word) : ∀ s : State,
    runningFold lm s (xs ++ ys)
      = ((runningFold lm s xs).1 + (runningFold lm (runningFold lm s xs).2 ys).1,
         (runningFold lm (runningFold lm s xs).2 ys).2) := by
  induction xs with
  | nil => intro s; simp [runningFold]
  | cons x xs ih =>
    intro s
    by_cases hnt : x.isNonTerminal = true
    · rw [List.cons_append, runningFold, if_pos hnt, runningFold, if_pos hnt]
      exact ih _
    · rw [List.cons_append, runningFold, if_neg hnt, runningFold, if_neg hnt, ih]
      simp only [add_assoc]

theorem oovTokens_append (lm : LanguageModelKen) (xs ys : List Word) :
    oovTokens lm (xs ++ ys) = oovTokens lm xs + oovTokens lm ys := by
  simp [oovTokens, List.countP_append]

theorem calcLoop_twice (lm : LanguageModelKen) (phrase : List Word) (s0 : State)
    (start e : Nat) (hstart : start ≤ phrase.length) (he : e ≤ phrase.length) :
    ((calcLoop lm phrase (e - start) ⟨0, ⟨0, s0⟩, 0, start⟩).fullScore
        + (calcLoop lm phrase (e - start) ⟨0, ⟨0, s0⟩, 0, start⟩).scorer.prob_
      = (runningFold lm s0 ((phrase.drop start).take (e - start))).1)
    ∧ ((calcLoop lm phrase
          (phrase.length - (calcLoop lm phrase (e - start) ⟨0, ⟨0, s0⟩, 0, start⟩).position)
          (calcLoop lm phrase (e - start) ⟨0, ⟨0, s0⟩, 0, start⟩)).fullScore
        + (calcLoop lm phrase
          (phrase.length - (calcLoop lm phrase (e - start) ⟨0, ⟨0, s0⟩, 0, start⟩).position)
          (calcLoop lm phrase (e - start) ⟨0, ⟨0, s0⟩, 0, start⟩)).scorer.prob_
      = (runningFold lm s0 (phrase.drop start)).1)
    ∧ ((calcLoop lm phrase
          (phrase.length - (calcLoop lm phrase (e - start) ⟨0, ⟨0, s0⟩, 0, start⟩).position)
          (calcLoop lm phrase (e - start) ⟨0, ⟨0, s0⟩, 0, start⟩)).oovCount
      = oovTokens lm (phrase.drop start)) := by
  obtain ⟨a1, a2, a3, a4⟩ := calcLoop_general lm phrase (e - start) ⟨0, ⟨0, s0⟩, 0, start⟩
    (by show start + (e - start) ≤ phrase.length; omega)
  generalize calcLoop lm phrase (e - start) ⟨0, ⟨0, s0⟩, 0, start⟩ = c1 at a1 a2 a3 a4 ⊢
  dsimp only at a1 a2 a3 a4
  obtain ⟨b1, _, b3, _⟩ := calcLoop_general lm phrase (phrase.length - c1.position) c1
    (by rw [a4]; omega)
  generalize calcLoop lm phrase (phrase.length - c1.position) c1 = c2 at b1 b3 ⊢
  have hsplit : phrase.drop start
      = (phrase.drop start).take (e - start) ++ phrase.drop c1.position := by
    rw [a4]
    conv_lhs => rw [← List.take_append_drop (e - start) (phrase.drop start)]
    rw [List.drop_drop]
  have htake : (phrase.drop c1.position).take (phrase.length - c1.position)
      = phrase.drop c1.position := List.take_of_length_le (by simp)
  rw [htake] at b1 b3
  refine ⟨?_, ?_, ?_⟩
  · rw [a1]; ring
  · rw [b1, a1, a2]
    conv_rhs => rw [hsplit, runningFold_append]
    ring
  · rw [b3, a3]
    conv_rhs => rw [hsplit, oovTokens_append]
    ring

theorem CalcScore_general (lm : LanguageModelKen) (phrase : List Word) (hne : phrase ≠ []) :
    (CalcScore lm phrase).fullScore = lm.TransformLMScore (runningTotal lm phrase)
    ∧ (CalcScore lm phrase).ngramScore
        = lm.TransformLMScore (runningTotal lm phrase - CalcScoreBeforeBoundary lm phrase)
    ∧ CalcScoreBeforeBoundary lm phrase
        = runningTotal lm (phrase.take (min (lm.m_ngram.Order - 1) phrase.length))
    ∧ (CalcScore lm phrase).oovCount
        = oovTokens lm
            (if lm.m_beginSentenceFactor = (phrase.getD 0 default).factor then phrase.drop 1
             else phrase) := by
  cases phrase with
  | nil => exact absurd rfl hne
  | cons w ws =>
    have hlen0 : ¬ (w :: ws).length = 0 := by simp
    have hget : (w :: ws).getD 0 default = w := rfl
    by_cases hb : lm.m_beginSentenceFactor = w.factor
    · obtain ⟨t1, t2, t3⟩ := calcLoop_twice lm (w :: ws) lm.m_ngram.BeginSentenceState 1
        (min (lm.m_ngram.Order - 1) (w :: ws).length) (by simp) (Nat.min_le_right _ _)
      have hfull : runningTotal lm (w :: ws)
          = (runningFold lm lm.m_ngram.BeginSentenceState ((w :: ws).drop 1)).1 := by
        simp [runningTotal, hb]
      have hbefore : CalcScoreBeforeBoundary lm (w :: ws)
          = (runningFold lm lm.m_ngram.BeginSentenceState
              (((w :: ws).drop 1).take (min (lm.m_ngram.Order - 1) (w :: ws).length - 1))).1 := by
        rw [← t1]
        simp only [CalcScoreBeforeBoundary, hget, hb, if_true, RuleScore.Finish]
        rfl
      refine ⟨?_, ?_, ?_, ?_⟩
      · rw [hfull, ← t2]
        simp only [CalcScore, hlen0, hget, hb, if_true, if_false, RuleScore.Finish]
        rfl
      · rw [hfull, hbefore, ← t2, ← t1]
        simp only [CalcScore, hlen0, hget, hb, if_true, if_false, RuleScore.Finish]
        rfl
      · rw [hbefore]
        by_cases h0 : min (lm.m_ngram.Order - 1) (w :: ws).length = 0
        · rw [h0]; simp [runningTotal, runningFold]
        · obtain ⟨k, hk⟩ := Nat.exists_eq_succ_of_ne_zero h0
          rw [hk]
          simp [runningTotal, hb]
      · rw [hget, if_pos hb, ← t3]
        simp only [CalcScore, hlen0, hget, hb, if_true, if_false]
        rfl
    · obtain ⟨t1, t2, t3⟩ := calcLoop_twice lm (w :: ws) RuleScore.Reset.right 0
        (min (lm.m_ngram.Order - 1) (w :: ws).length) (by simp) (Nat.min_le_right _ _)
      have hfull : runningTotal lm (w :: ws)
          = (runningFold lm RuleScore.Reset.right ((w :: ws).drop 0)).1 := by
        simp [runningTotal, hb]
      have hbefore : CalcScoreBeforeBoundary lm (w :: ws)
          = (runningFold lm RuleScore.Reset.right
              (((w :: ws).drop 0).take (min (lm.m_ngram.Order - 1) (w :: ws).length - 0))).1 := by
        rw [← t1]
        simp only [CalcScoreBeforeBoundary, hget, hb, if_false, RuleScore.Finish]
        rfl
      refine ⟨?_, ?_, ?_, ?_⟩
      · rw [hfull, ← t2]
        simp only [CalcScore, hlen0, hget, hb, if_false, RuleScore.Finish]
        rfl
      · rw [hfull, hbefore, ← t2, ← t1]
        simp only [CalcScore, hlen0, hget, hb, if_false, RuleScore.Finish]
        rfl
      · rw [hbefore]
        by_cases h0 : min (lm.m_ngram.Order - 1) (w :: ws).length = 0
        · rw [h0]; simp [runningTotal, runningFold]
        · obtain ⟨k, hk⟩ := Nat.exists_eq_succ_of_ne_zero h0
          rw [hk]
          simp [runningTotal, hb]
      · have t3' : _ = oovTokens lm (w :: ws) := t3
        rw [hget, if_neg hb, ← t3']
        simp only [CalcScore, hlen0, hget, hb, if_false]
        rfl

/-- C17, as stated, fails on a phrase with a placeholder among its first order - 1
positions: for the trigram model and the phrase "a [X] b", the running total after
min(2, 3) = 2 terminal words is p(a) + p(b) = -7, but before_boundary is p(a) = -3,
the total after the first two positions. -/
theorem before_boundary_counts_positions :
    CalcScoreBeforeBoundary histLM gapPhrase = -3
    ∧ runningTotal histLM
        (prefixOfTerminals (min (histLM.m_ngram.Order - 1) gapPhrase.length) gapPhrase) = -7
    ∧ CalcScoreBeforeBoundary histLM gapPhrase
        ≠ runningTotal histLM
            (prefixOfTerminals (min (histLM.m_ngram.Order - 1) gapPhrase.length) gapPhrase) := by
  have h1 : CalcScoreBeforeBoundary histLM gapPhrase = -3 := by
    simp [CalcScoreBeforeBoundary, calcLoop, calcStep, gapPhrase, exWord, exGap, histLM,
      histModel, histState, histProb, TranslateID, RuleScore.Reset, RuleScore.Terminal,
      RuleScore.Finish]
  have h2 : runningTotal histLM
      (prefixOfTerminals (min (histLM.m_ngram.Order - 1) gapPhrase.length) gapPhrase) = -7 := by
    simp [runningTotal, runningFold, prefixOfTerminals, gapPhrase, exWord, exGap, histLM,
      histModel, histState, histProb, TranslateID, RuleScore.Reset]
    norm_num
  refine ⟨h1, h2, ?_⟩
  rw [h1, h2]
  norm_num

/-- C17, amended: in CalcScore, for every non-empty phrase (placeholders and a leading
sentence-begin token included), before_boundary is the running total immediately after
the first min(order - 1, phrase length) positions of the phrase have been consumed, the
scorer being finished and reset at each placeholder and seeded, not scored, by a leading
sentence-begin token; ngramScore is the transform of the full running total minus
before_boundary. -/
theorem CalcScore_before_boundary (lm : LanguageModelKen) (phrase : List Word)
    (hne : phrase ≠ []) :
    CalcScoreBeforeBoundary lm phrase
      = runningTotal lm (phrase.take (min (lm.m_ngram.Order - 1) phrase.length))
    ∧ (CalcScore lm phrase).fullScore = lm.TransformLMScore (runningTotal lm phrase)
    ∧ (CalcScore lm phrase).ngramScore
        = lm.TransformLMScore (runningTotal lm phrase - CalcScoreBeforeBoundary lm phrase) := by
  obtain ⟨h1, h2, h3, _⟩ := CalcScore_general lm phrase hne
  exact ⟨h3, h1, h2⟩

theorem CalcScore_before_boundary_witness :
    gapPhrase ≠ []
    ∧ CalcScoreBeforeBoundary histLM gapPhrase = -3
    ∧ runningTotal histLM (gapPhrase.take (min (histLM.m_ngram.Order - 1) gapPhrase.length))
        = -3 := by
  have hne : gapPhrase ≠ [] := by decide
  have h := (CalcScore_before_boundary histLM gapPhrase hne).1
  have h1 : CalcScoreBeforeBoundary histLM gapPhrase = -3 := by
    simp [CalcScoreBeforeBoundary, calcLoop, calcStep, gapPhrase, exWord, exGap, histLM,
      histModel, histState, histProb, TranslateID, RuleScore.Reset, RuleScore.Terminal,
      RuleScore.Finish]
  exact ⟨hne, h1, by rw [← h, h1]⟩

theorem chartLoop_calls {σ κ : Type} (lm : LanguageModelKen) (S : RuleScorer σ κ)
    (hypo : ChartHypothesis κ) : ∀ (n first : Nat) (ruleScore : σ),
    (first = 0 → (hypo.GetCurrTargetPhrase.getD 0 default).factor ≠ lm.m_beginSentenceFactor
      ∧ (hypo.GetCurrTargetPhrase.getD 0 default).isNonTerminal = false) →
    chartLoop lm S hypo n first ruleScore
      = (callsFrom lm hypo first n).foldl (applyCall S) ruleScore := by
  intro n
  induction n with
  | zero => intro first r _; simp [chartLoop, callsFrom]
  | succ n ih =>
    intro first r h0
    have hstep : chartStep lm S hypo r first
        = applyCall S r (symbolCall lm hypo first
            (hypo.GetCurrTargetPhrase.getD first default)) := by
      unfold chartStep symbolCall
      dsimp only
      by_cases hf : first = 0
      · obtain ⟨hb, hnt⟩ := h0 hf
        subst hf
        generalize hypo.GetCurrTargetPhrase.getD 0 default = word at hb hnt ⊢
        simp [hb, hnt, applyCall]
      · generalize hypo.GetCurrTargetPhrase.getD first default = word
        by_cases hnt : word.isNonTerminal = true
        · simp [hf, hnt, applyCall]
        · simp [hf, hnt, applyCall]
    rw [chartLoop, ih (first + 1) _ (fun h => absurd h (by omega)), hstep]
    simp [callsFrom, List.range'_succ]

theorem EvaluateChart_eq_calls {σ κ : Type} (lm : LanguageModelKen) (S : RuleScorer σ κ)
    (ruleScore : σ) (hypo : ChartHypothesis κ) :
    EvaluateChart lm S ruleScore hypo
      = ((S.Finish ((ruleCalls lm hypo).foldl (applyCall S) ruleScore)).2,
         (S.Finish ((ruleCalls lm hypo).foldl (applyCall S) ruleScore)).1) := by
  have key : chartLoop lm S hypo
        (hypo.GetCurrTargetPhrase.length - (chartFirst lm S hypo ruleScore).2)
        (chartFirst lm S hypo ruleScore).2 (chartFirst lm S hypo ruleScore).1
      = (ruleCalls lm hypo).foldl (applyCall S) ruleScore := by
    unfold ruleCalls
    by_cases hsize : hypo.GetCurrTargetPhrase.length = 0
    · simp [chartFirst, hsize, chartLoop, callsFrom]
    · obtain ⟨k, hk⟩ := Nat.exists_eq_succ_of_ne_zero hsize
      have hsplit : callsFrom lm hypo 0 hypo.GetCurrTargetPhrase.length
          = symbolCall lm hypo 0 (hypo.GetCurrTargetPhrase.getD 0 default)
            :: callsFrom lm hypo 1 k := by
        rw [hk]
        simp [callsFrom, List.range'_succ]
      have hsize' : hypo.GetCurrTargetPhrase.length ≠ 0 := hsize
      have hk' : hypo.GetCurrTargetPhrase.length - 1 = k := by omega
      by_cases hb : (hypo.GetCurrTargetPhrase.getD 0 default).factor = lm.m_beginSentenceFactor
      · have hfirst : chartFirst lm S hypo ruleScore = (S.BeginSentence ruleScore, 1) := by
          unfold chartFirst
          rw [if_pos hsize']
          dsimp only
          rw [if_pos hb]
        have hsym : symbolCall lm hypo 0 (hypo.GetCurrTargetPhrase.getD 0 default)
            = RuleCall.BeginSentence := by
          unfold symbolCall
          rw [if_pos ⟨rfl, hb⟩]
        rw [hfirst, hsplit, List.foldl_cons, hsym]
        show chartLoop lm S hypo (hypo.GetCurrTargetPhrase.length - 1) 1
            (S.BeginSentence ruleScore) = _
        rw [hk', chartLoop_calls lm S hypo k 1 _ (fun h => absurd h (by omega))]
        rfl
      · by_cases hnt : (hypo.GetCurrTargetPhrase.getD 0 default).isNonTerminal = true
        · have hfirst : chartFirst lm S hypo ruleScore
              = (S.BeginNonTerminal ruleScore (hypo.GetPrevHypo (hypo.nonTermIndexMap 0)).1
                  (hypo.GetPrevHypo (hypo.nonTermIndexMap 0)).2, 1) := by
            unfold chartFirst
            rw [if_pos hsize']
            dsimp only
            rw [if_neg hb, if_pos hnt]
          have hsym : symbolCall lm hypo 0 (hypo.GetCurrTargetPhrase.getD 0 default)
              = RuleCall.BeginNonTerminal (hypo.GetPrevHypo (hypo.nonTermIndexMap 0)).1
                  (hypo.GetPrevHypo (hypo.nonTermIndexMap 0)).2 := by
            unfold symbolCall
            rw [if_neg (fun h => hb h.2), if_pos hnt, if_pos rfl]
          rw [hfirst, hsplit, List.foldl_cons, hsym]
          show chartLoop lm S hypo (hypo.GetCurrTargetPhrase.length - 1) 1
              (S.BeginNonTerminal ruleScore (hypo.GetPrevHypo (hypo.nonTermIndexMap 0)).1
                (hypo.GetPrevHypo (hypo.nonTermIndexMap 0)).2) = _
          rw [hk', chartLoop_calls lm S hypo k 1 _ (fun h => absurd h (by omega))]
          rfl
        · have hfirst : chartFirst lm S hypo ruleScore = (ruleScore, 0) := by
            unfold chartFirst
            rw [if_pos hsize']
            dsimp only
            rw [if_neg hb, if_neg hnt]
          rw [hfirst]
          show chartLoop lm S hypo (hypo.GetCurrTargetPhrase.length - 0) 0 ruleScore = _
          rw [Nat.sub_zero]
          exact chartLoop_calls lm S hypo _ 0 _ (fun _ => ⟨hb, by simpa using hnt⟩)
  unfold EvaluateChart
  simp only [key]

/-- C16: EvaluateChart consumes every symbol of the rule body exactly once, in
left-to-right order: it makes one scorer call per position, the call for position 0
being BeginSentence when the symbol is the sentence-begin token (tested first),
BeginNonTerminal with the aligned child's chart state and recorded score when it is a
non-terminal, and the call of a body symbol otherwise; every later symbol is fed with
Terminal(mapped index) when it is a terminal and NonTerminal(aligned child's chart
state, child's recorded score) when it is a non-terminal.  The score assigned to the
accumulator is the Finish value of the scorer after these calls; an empty body makes no
call before Finish. -/
theorem EvaluateChart_state_machine {σ κ : Type} (lm : LanguageModelKen) (S : RuleScorer σ κ)
    (ruleScore : σ) (hypo : ChartHypothesis κ) :
    EvaluateChart lm S ruleScore hypo
      = ((S.Finish ((ruleCalls lm hypo).foldl (applyCall S) ruleScore)).2,
         (S.Finish ((ruleCalls lm hypo).foldl (applyCall S) ruleScore)).1)
    ∧ (ruleCalls lm hypo).length = hypo.GetCurrTargetPhrase.length
    ∧ (∀ pos, pos < hypo.GetCurrTargetPhrase.length →
        (ruleCalls lm hypo)[pos]?
          = some (symbolCall lm hypo pos (hypo.GetCurrTargetPhrase.getD pos default)))
    ∧ (hypo.GetCurrTargetPhrase = [] →
        EvaluateChart lm S ruleScore hypo = ((S.Finish ruleScore).2, (S.Finish ruleScore).1)) := by
  refine ⟨EvaluateChart_eq_calls lm S ruleScore hypo, by simp [ruleCalls, callsFrom], ?_, ?_⟩
  · intro pos hpos
    simp [ruleCalls, callsFrom, List.getElem?_map, List.getElem?_range' , hpos]
  · intro h
    rw [EvaluateChart_eq_calls]
    simp [ruleCalls, callsFrom, h]

theorem walkLoopPositions_eq : ∀ (n position : Nat),
    walkLoopPositions n position = List.range' position n := by
  intro n
  induction n with
  | zero => intro position; rfl
  | succ n ih => intro position; rw [walkLoopPositions, ih, List.range'_succ]

theorem EvaluateWalkPositions_eq (lm : LanguageModelKen) (hypo : Hypothesis)
    (h : hypo.GetStartPos < adjustEnd lm hypo) :
    EvaluateWalkPositions lm hypo
      = List.range' hypo.GetStartPos (adjustEnd lm hypo - hypo.GetStartPos) := by
  unfold EvaluateWalkPositions
  dsimp only
  have e : adjustEnd lm hypo - hypo.GetStartPos
      = (adjustEnd lm hypo - (hypo.GetStartPos + 1)) + 1 := by omega
  rw [walkLoopPositions_eq, e, List.range'_succ]

theorem EvaluateWalk_calls_positions (lm : LanguageModelKen) (hypo : Hypothesis) (ps : State)
    (h : hypo.GetStartPos < adjustEnd lm hypo) :
    (EvaluateWalk lm hypo ps).calls
      = scoreSteps lm.m_ngram ps
          ((EvaluateWalkPositions lm hypo).map fun i => TranslateID lm (hypo.GetWord i)) := by
  rw [(EvaluateWalk_spec lm hypo ps h).2.2, EvaluateWalkPositions_eq lm hypo h]
  rfl

theorem calcStep_position (lm : LanguageModelKen) (phrase : List Word) (c : CalcState) :
    (calcStep lm phrase c).position = c.position + 1 := by
  unfold calcStep
  dsimp only
  split <;> rfl

theorem calcLoop_position (lm : LanguageModelKen) (phrase : List Word) :
    ∀ (n : Nat) (c : CalcState), (calcLoop lm phrase n c).position = c.position + n := by
  intro n
  induction n with
  | zero => intro c; rfl
  | succ n ih =>
    intro c
    rw [calcLoop, ih, calcStep_position]
    omega

theorem calcLoopPositions_eq (lm : LanguageModelKen) (phrase : List Word) :
    ∀ (n : Nat) (c : CalcState),
    calcLoopPositions lm phrase n c = List.range' c.position n := by
  intro n
  induction n with
  | zero => intro c; rfl
  | succ n ih =>
    intro c
    rw [calcLoopPositions, ih, calcStep_position, List.range'_succ]

theorem ngramScorePositions_eq (lm : LanguageModelKen) (phrase : List Word)
    (hne : phrase ≠ [])
    (hbos : (phrase.getD 0 default).factor ≠ lm.m_beginSentenceFactor) :
    ngramScorePositions lm phrase
      = List.range' (lm.m_ngram.Order - 1) (phrase.length - (lm.m_ngram.Order - 1)) := by
  have hlen0 : phrase.length ≠ 0 := by
    intro h; exact hne (List.length_eq_zero.1 h)
  have hbos' : ¬ lm.m_beginSentenceFactor = (phrase.getD 0 default).factor :=
    fun e => hbos e.symm
  unfold ngramScorePositions
  rw [if_neg hlen0, if_neg hbos']
  dsimp only
  rw [calcLoopPositions_eq, calcLoop_position]
  dsimp only
  by_cases hb : lm.m_ngram.Order - 1 ≤ phrase.length
  · rw [Nat.min_eq_left hb]
    simp
  · have hb' : phrase.length ≤ lm.m_ngram.Order - 1 := by omega
    rw [Nat.min_eq_right hb']
    have e1 : phrase.length - (0 + (phrase.length - 0)) = 0 := by omega
    have e2 : phrase.length - (lm.m_ngram.Order - 1) = 0 := by omega
    rw [e1, e2]
    rfl

theorem range'_map_getD_drop (L : List ℚ) (b : Nat) :
    (List.range' b (L.length - b)).map (fun i => L.getD i 0) = L.drop b := by
  by_cases hb : b ≤ L.length
  · have h := range'_map_getD (fun x : ℚ => x) 0 L (L.length - b) b (by omega)
    rw [h, List.map_id', List.take_of_length_le (by simp)]
  · have e : L.length - b = 0 := by omega
    rw [e, List.drop_of_length_le (by omega)]
    rfl

theorem count_range' (s n i : Nat) :
    (List.range' s n).count i = if s ≤ i ∧ i < s + n then 1 else 0 := by
  rw [List.count_eq_of_nodup (List.nodup_range' s n)]
  simp only [List.mem_range'_1]

theorem range_append_range' (n b : Nat) :
    List.range (min n b) ++ List.range' b (n - b) = List.range n := by
  by_cases hb : b ≤ n
  · rw [Nat.min_eq_right hb, List.range_eq_range', List.range_eq_range']
    have h := List.range'_append 0 b (n - b) 1
    simp only [Nat.one_mul, Nat.zero_add] at h
    rw [h]
    congr 1
    omega
  · have e : n - b = 0 := by omega
    rw [Nat.min_eq_left (by omega), e]
    simp

theorem appendPhrase_GetWord (pre p : List Word) (c : Bool) (i : Nat) :
    (appendPhrase pre p c).GetWord (pre.length + i) = p.getD i default := by
  show (pre ++ p).getD (pre.length + i) default = p.getD i default
  rw [List.getD_append_right _ _ _ _ (by omega)]
  congr 1
  omega

theorem EvaluateWalkPositions_appendPhrase (lm : LanguageModelKen) (pre p : List Word)
    (c : Bool) (hO : 2 ≤ lm.m_ngram.Order) (hp : 1 ≤ p.length) :
    EvaluateWalkPositions lm (appendPhrase pre p c)
      = (List.range (min p.length (lm.m_ngram.Order - 1))).map (fun i => pre.length + i) := by
  have hadj := adjustEnd_appendPhrase lm pre p c hp
  have hstart : (appendPhrase pre p c).GetStartPos = pre.length := rfl
  have hlt : (appendPhrase pre p c).GetStartPos < adjustEnd lm (appendPhrase pre p c) := by
    rw [hadj, hstart]; omega
  rw [EvaluateWalkPositions_eq lm _ hlt, hadj, hstart, Nat.add_sub_cancel_left,
    List.range'_eq_map_range]

/-- C21: for a model of order at least 2 and a phrase of n ≥ 1 terminal words that does
not start with the sentence-begin token, taken as the span a hypothesis appends: the
walk of Evaluate scores exactly the words at the in-phrase positions
0, ..., min(n, order - 1) - 1, in this order; the loop of CalcScore that runs after
before_boundary is taken, whose per-word log-probabilities make up ngramScore, visits
exactly the positions order - 1, ..., n - 1; no position is in both lists, a position
is in one of them if and only if it is below n, the walk positions followed by the
ngramScore positions are 0, 1, ..., n - 1, and every position of the phrase occurs
exactly once in the two lists together. -/
theorem walk_ngramScore_complementary (lm : LanguageModelKen) (pre p : List Word) (c : Bool)
    (ps : State) (hO : 2 ≤ lm.m_ngram.Order) (hp : 1 ≤ p.length)
    (hterm : ∀ w ∈ p, w.isNonTerminal = false)
    (hbos : (p.getD 0 default).factor ≠ lm.m_beginSentenceFactor) :
    EvaluateWalkPositions lm (appendPhrase pre p c)
        = (List.range (min p.length (lm.m_ngram.Order - 1))).map (fun i => pre.length + i)
    ∧ (EvaluateWalk lm (appendPhrase pre p c) ps).calls
        = scoreSteps lm.m_ngram ps
            ((EvaluateWalkPositions lm (appendPhrase pre p c)).map
              fun i => TranslateID lm ((appendPhrase pre p c).GetWord i))
    ∧ (∀ i, (appendPhrase pre p c).GetWord (pre.length + i) = p.getD i default)
    ∧ ngramScorePositions lm p
        = List.range' (lm.m_ngram.Order - 1) (p.length - (lm.m_ngram.Order - 1))
    ∧ (CalcScore lm p).ngramScore
        = lm.TransformLMScore
            ((ngramScorePositions lm p).map fun i => (phraseProbs lm p).getD i 0).sum
    ∧ (∀ i, pre.length + i ∈ EvaluateWalkPositions lm (appendPhrase pre p c) →
        i ∉ ngramScorePositions lm p)
    ∧ (∀ i, i < p.length ↔
        (pre.length + i ∈ EvaluateWalkPositions lm (appendPhrase pre p c)
          ∨ i ∈ ngramScorePositions lm p))
    ∧ ((EvaluateWalkPositions lm (appendPhrase pre p c)).map (fun q => q - pre.length)
        ++ ngramScorePositions lm p = List.range p.length)
    ∧ (∀ i, i < p.length →
        (EvaluateWalkPositions lm (appendPhrase pre p c)).count (pre.length + i)
          + (ngramScorePositions lm p).count i = 1) := by
  have hne : p ≠ [] := by
    intro h; rw [h] at hp; simp at hp
  have hW := EvaluateWalkPositions_appendPhrase lm pre p c hO hp
  have hW' : EvaluateWalkPositions lm (appendPhrase pre p c)
      = List.range' pre.length (min p.length (lm.m_ngram.Order - 1)) := by
    rw [hW, List.range'_eq_map_range]
  have hN := ngramScorePositions_eq lm p hne hbos
  have hadj := adjustEnd_appendPhrase lm pre p c hp
  have hlt : (appendPhrase pre p c).GetStartPos < adjustEnd lm (appendPhrase pre p c) := by
    rw [hadj]; simp only [appendPhrase]; omega
  have hlen : (phraseProbs lm p).length = p.length := by
    unfold phraseProbs
    rw [wordProbs_length, List.length_map]
  have hsplit : (phraseProbs lm p).sum
      = ((phraseProbs lm p).take (lm.m_ngram.Order - 1)).sum
        + ((phraseProbs lm p).drop (lm.m_ngram.Order - 1)).sum := by
    conv_lhs => rw [← List.take_append_drop (lm.m_ngram.Order - 1) (phraseProbs lm p)]
    rw [List.sum_append]
  have hmemW : ∀ i, pre.length + i ∈ EvaluateWalkPositions lm (appendPhrase pre p c)
      ↔ i < min p.length (lm.m_ngram.Order - 1) := by
    intro i
    rw [hW', List.mem_range'_1]
    omega
  have hmemN : ∀ i, i ∈ ngramScorePositions lm p
      ↔ lm.m_ngram.Order - 1 ≤ i ∧ i < p.length := by
    intro i
    rw [hN, List.mem_range'_1]
    omega
  refine ⟨hW, EvaluateWalk_calls_positions lm _ ps hlt, appendPhrase_GetWord pre p c, hN,
    ?_, ?_, ?_, ?_, ?_⟩
  · rw [(CalcScore_raw lm p hne hterm hbos).2.1, hN, ← hlen, range'_map_getD_drop, hsplit]
    congr 1
    ring
  · intro i hi
    rw [hmemW] at hi
    rw [hmemN]
    omega
  · intro i
    rw [hmemW, hmemN]
    omega
  · rw [hW, List.map_map, hN]
    have hid : (List.range (min p.length (lm.m_ngram.Order - 1))).map
        ((fun q => q - pre.length) ∘ fun i => pre.length + i)
        = List.range (min p.length (lm.m_ngram.Order - 1)) := by
      conv_rhs => rw [← List.map_id (List.range (min p.length (lm.m_ngram.Order - 1)))]
      apply List.map_congr_left
      intro a _
      simp
    rw [hid, range_append_range']
  · intro i hi
    rw [hW', hN, count_range', count_range']
    by_cases h1 : i < lm.m_ngram.Order - 1
    · rw [if_pos (by omega), if_neg (by omega)]
    · rw [if_neg (by omega), if_pos (by omega)]

theorem walk_ngramScore_complementary_witness :
    2 ≤ histLM.m_ngram.Order ∧ 1 ≤ exPhrase.length
    ∧ (∀ w ∈ exPhrase, w.isNonTerminal = false)
    ∧ (exPhrase.getD 0 default).factor ≠ histLM.m_beginSentenceFactor
    ∧ EvaluateWalkPositions histLM (appendPhrase [exWord 6] exPhrase false) = [1, 2]
    ∧ ((EvaluateWalk histLM (appendPhrase [exWord 6] exPhrase false)
          (EmptyHypothesisState histLM)).calls.map Prod.snd) = [3, 4]
    ∧ ngramScorePositions histLM exPhrase = [2, 3, 4, 5, 6]
    ∧ (CalcScore histLM exPhrase).ngramScore = -75 + -96 + -117 + -138 + -159
    ∧ (EvaluateWalkPositions histLM (appendPhrase [exWord 6] exPhrase false)).map
          (fun q => q - 1) ++ ngramScorePositions histLM exPhrase
        = [0, 1, 2, 3, 4, 5, 6] := by
  have hO : 2 ≤ histLM.m_ngram.Order := by decide
  have hlen : 1 ≤ exPhrase.length := by decide
  have hterm : ∀ w ∈ exPhrase, w.isNonTerminal = false := by decide
  have hbos : (exPhrase.getD 0 default).factor ≠ histLM.m_beginSentenceFactor := by decide
  have hp : phraseProbs histLM exPhrase = [-3, -34, -75, -96, -117, -138, -159] := by
    simp [phraseProbs, wordProbs, exPhrase, exWord, histLM, histModel, histState, histProb,
      TranslateID, RuleScore.Reset]
    norm_num
  obtain ⟨h1, h2, _, h4, h5, _, _, h8, _⟩ :=
    walk_ngramScore_complementary histLM [exWord 6] exPhrase false
      (EmptyHypothesisState histLM) hO hlen hterm hbos
  have hW : EvaluateWalkPositions histLM (appendPhrase [exWord 6] exPhrase false) = [1, 2] := by
    rw [h1]; rfl
  have hN : ngramScorePositions histLM exPhrase = [2, 3, 4, 5, 6] := by
    rw [h4]; rfl
  refine ⟨hO, hlen, hterm, hbos, hW, ?_, hN, ?_, ?_⟩
  · rw [h2, hW]
    rfl
  · rw [h5, hN, hp]
    simp [histLM]
    norm_num
  · exact h8

end Moses
